import Mathlib

/-!
# cascorp-com-documentation: the PDF extraction / download pipeline of `main.go`

A shallow embedding of `main.go` and of the Go library routines it calls.

Go strings are modelled as `List Char`, a sequence of Unicode code points, so
the development covers every string that is valid UTF-8.  All the byte-level
library routines used by the program (`path.Base`, `filepath.Ext`,
`strings.ReplaceAll`, ...) only look for ASCII bytes, for which bytes and code
points coincide.

File paths follow the Unix build of the program: `/` is the only separator.
-/

namespace Cascorp

/-- A Go string: its sequence of code points. -/
abbrev Str := List Char

/-! ## Library: package `strings` -/

section Strings

/-- The rune mapping `unicode.ToLower`.  On ASCII it is fixed by the language
(`A`..`Z` go to `a`..`z`); beyond ASCII it follows the Unicode case tables,
which enter the development as the function `ul`. -/
def toLowerRune (ul : Char → Char) (c : Char) : Char :=
  if c.toNat < 128 then c.toLower else ul c

/-- The function `strings.ToLower`. -/
def toLower (ul : Char → Char) (s : Str) : Str :=
  s.map (toLowerRune ul)

/-- The function `strings.TrimPrefix`, and the string result of `strings.CutPrefix`. -/
def trimPrefix (s pre : Str) : Str :=
  if pre.isPrefixOf s then s.drop pre.length else s

/-- Non-overlapping left-to-right deletion of `old`; the counter is the number
of characters of the occurrence being deleted that are still to be skipped. -/
def deleteAll (old : Str) : Nat → Str → Str
  | _, [] => []
  | n + 1, _ :: cs => deleteAll old n cs
  | 0, c :: cs =>
    if old.isPrefixOf (c :: cs) then deleteAll old (old.length - 1) cs
    else c :: deleteAll old 0 cs

/-- The call `strings.ReplaceAll(s, old, "")`. -/
def replaceAllWithEmpty (s old : Str) : Str :=
  if old.isEmpty then s else deleteAll old 0 s

/-- The function `strings.HasPrefix`. -/
def hasPrefix (s pre : Str) : Bool :=
  pre.isPrefixOf s

/-- The function `strings.HasSuffix`. -/
def hasSuffix (s suf : Str) : Bool :=
  suf.isSuffixOf s

/-- The call `strings.Contains(s, sub)`. -/
def contains (s sub : Str) : Bool :=
  s.tails.any (fun t => sub.isPrefixOf t)

end Strings

/-! ## Library: packages `path` and `path/filepath` -/

/-- The part of `p` after its last `/` (all of `p` when it has none). -/
def afterLastSlash (p : Str) : Str :=
  (p.reverse.takeWhile (fun c => c != '/')).reverse

/-- The string `p` without its trailing slashes. -/
def stripTrailingSlashes (p : Str) : Str :=
  (p.reverse.dropWhile (fun c => c == '/')).reverse

/-- The function `path.Base`. -/
def pathBase (p : Str) : Str :=
  if p.isEmpty then ['.']
  else
    let q := afterLastSlash (stripTrailingSlashes p)
    if q.isEmpty then ['/'] else q

/-- The backwards scan of `filepath.Ext`: `rev` is the part of the path not yet
visited, reversed; `acc` is the part already visited. -/
def extScan : Str → Str → Str
  | [], _ => []
  | c :: rev, acc =>
    if c == '/' then []
    else if c == '.' then '.' :: acc
    else extScan rev (c :: acc)

/-- The function `filepath.Ext`. -/
def filepathExt (p : Str) : Str :=
  extScan p.reverse []

/-- The elements of a path: the pieces between its slashes. -/
def splitSlash : Str → Str → List Str
  | [], cur => [cur.reverse]
  | c :: cs, cur => if c == '/' then cur.reverse :: splitSlash cs [] else splitSlash cs (c :: cur)

/-- One element of the path handed to `filepath.Clean`; `out` holds the
elements kept so far, last one first.  Empty elements and `.` are dropped, `..`
removes the element before it, is dropped at the root, and is kept at the start
of a relative path. -/
def cleanStep (rooted : Bool) (out : List Str) (elem : Str) : List Str :=
  if elem.isEmpty || elem = ['.'] then out
  else if elem = ['.', '.'] then
    match out with
    | [] => if rooted then [] else [elem]
    | top :: rest => if top = ['.', '.'] then elem :: out else rest
  else elem :: out

/-- The function `filepath.Clean`. -/
def filepathClean (p : Str) : Str :=
  let rooted := hasPrefix p ['/']
  let out := (splitSlash p []).foldl (cleanStep rooted) []
  let body := ['/'].intercalate out.reverse
  if rooted then '/' :: body else if body.isEmpty then ['.'] else body

/-- The call `filepath.Join(a, b)`. -/
def filepathJoin (a b : Str) : Str :=
  if !a.isEmpty then filepathClean (a ++ '/' :: b)
  else if !b.isEmpty then filepathClean b
  else []

/-! ## Library: the two regular expressions of `urlToFilename` -/

/-- The call `ReplaceAllString(s, rep)` for a pattern `[class]+`: every maximal
run of characters of the class `p` is replaced by `rep`.  The flag tells whether
the previous character belonged to a run. -/
def replaceRuns (p : Char → Bool) (rep : Str) : Bool → Str → Str
  | _, [] => []
  | inRun, c :: cs =>
    if p c then
      if inRun then replaceRuns p rep true cs else rep ++ replaceRuns p rep true cs
    else c :: replaceRuns p rep false cs

/-- The character class `[a-z0-9]`. -/
def isLowerAlnum (c : Char) : Bool :=
  ('a' ≤ c && c ≤ 'z') || ('0' ≤ c && c ≤ '9')

/-! ## `main.go`: the filename sanitizer -/

/-- Source: `getFileExtension`. -/
def getFileExtension (path : Str) : Str :=
  filepathExt path

/-- Source: `getFileNameOnly`. -/
def getFileNameOnly (content : Str) : Str :=
  pathBase content

/-- Source: `removeSubstring`. -/
def removeSubstring (input toRemove : Str) : Str :=
  replaceAllWithEmpty input toRemove

/-- Source: `urlToFilename`. -/
def urlToFilename (ul : Char → Char) (rawURL : Str) : Str :=
  let lowercaseURL := toLower ul rawURL
  let ext := getFileExtension lowercaseURL
  let baseFilename := getFileNameOnly lowercaseURL
  let safeFilename := replaceRuns (fun c => !isLowerAlnum c) ['_'] false baseFilename
  let safeFilename := replaceRuns (fun c => c == '_') ['_'] false safeFilename
  let safeFilename := trimPrefix safeFilename ['_']
  let invalid_ext := '_' :: trimPrefix ext ['.']
  let invalidSubstrings := [invalid_ext]
  let safeFilename := invalidSubstrings.foldl removeSubstring safeFilename
  let safeFilename := safeFilename ++ ext
  safeFilename ++ ".pdf".toList

/-- The value of `safeFilename` in `urlToFilename` just before the extension is
appended: the same computation, stopped after the loop of line 120. -/
def safeStem (ul : Char → Char) (rawURL : Str) : Str :=
  let lowercaseURL := toLower ul rawURL
  let ext := getFileExtension lowercaseURL
  let baseFilename := getFileNameOnly lowercaseURL
  let safeFilename := replaceRuns (fun c => !isLowerAlnum c) ['_'] false baseFilename
  let safeFilename := replaceRuns (fun c => c == '_') ['_'] false safeFilename
  let safeFilename := trimPrefix safeFilename ['_']
  let invalid_ext := '_' :: trimPrefix ext ['.']
  let invalidSubstrings := [invalid_ext]
  invalidSubstrings.foldl removeSubstring safeFilename

/-! ## Library: the regular expression of `extractPDFUrls`

The pattern is `https?://[^\s"'<>]+\.pdf(?:\?[^"'<>]*)?`.  Go's `regexp` returns
the leftmost match and, among the matches starting there, the one a
backtracking matcher meets first: the greedy `+` keeps as many characters as it
can while still being followed by `.pdf`, and the greedy optional group is
taken whenever a `?` follows. -/

/-- The class `\s` of Go's `regexp`: tab, newline, form feed, carriage return, space. -/
def isRegexSpace (c : Char) : Bool :=
  c == '\t' || c == '\n' || c == Char.ofNat 12 || c == '\r' || c == ' '

/-- The class `["'<>]`. -/
def isQuoteOrAngle (c : Char) : Bool :=
  c == '"' || c == '\'' || c == '<' || c == '>'

/-- The class `[^\s"'<>]`. -/
def isUrlChar (c : Char) : Bool :=
  !(isRegexSpace c || isQuoteOrAngle c)

/-- The class `[^"'<>]`. -/
def isQueryChar (c : Char) : Bool :=
  !isQuoteOrAngle c

/-- Length of the text matched by `https?://` at the start of `s`. -/
def schemeLen (s : Str) : Option Nat :=
  if "https://".toList.isPrefixOf s then some 8
  else if "http://".toList.isPrefixOf s then some 7
  else none

/-- The largest `k` such that `.pdf` occurs in `r` at offset `k`. -/
def lastDotPdf : Str → Option Nat
  | [] => none
  | c :: cs =>
    match lastDotPdf cs with
    | some k => some (k + 1)
    | none => if ".pdf".toList.isPrefixOf (c :: cs) then some 0 else none

/-- Length of the match of the whole pattern anchored at the start of `s`, if
there is one. -/
def matchPdfUrl (s : Str) : Option Nat :=
  match schemeLen s with
  | none => none
  | some n =>
    match (s.drop n).takeWhile isUrlChar with
    | [] => none
    | _ :: run =>
      match lastDotPdf run with
      | none => none
      | some k =>
        let e := n + 1 + k + 4
        match s.drop e with
        | '?' :: q => some (e + 1 + (q.takeWhile isQueryChar).length)
        | _ => some e

/-- The successive non-overlapping matches in a text; the counter is the number
of characters of the current match still to be passed over. -/
def findAllFrom : Nat → Str → List Str
  | _, [] => []
  | n + 1, _ :: cs => findAllFrom n cs
  | 0, c :: cs =>
    match matchPdfUrl (c :: cs) with
    | some len => (c :: cs).take len :: findAllFrom (len - 1) cs
    | none => findAllFrom 0 cs

/-- The call `re.FindAllString(html, -1)`. -/
def findAllString (html : Str) : List Str :=
  findAllFrom 0 html

/-! ## `main.go`: extraction and de-duplication -/

/-- A Go `map[string]bool`: a missing key reads as `false`. -/
abbrev BoolMap := Str → Bool

/-- The assignment `m[k] = true`. -/
def BoolMap.setTrue (m : BoolMap) (k : Str) : BoolMap :=
  fun k2 => if k2 = k then true else m k2

/-- One iteration of the loop shared by `extractPDFUrls` and
`removeDuplicatesFromSlice`: the state is the map and the slice built so far. -/
def dedupStep (st : BoolMap × List Str) (content : Str) : BoolMap × List Str :=
  if !st.1 content then (st.1.setTrue content, st.2 ++ [content]) else st

/-- Source: `removeDuplicatesFromSlice`. -/
def removeDuplicatesFromSlice (slice : List Str) : List Str :=
  (slice.foldl dedupStep (fun _ => false, [])).2

/-- Source: `extractPDFUrls`. -/
def extractPDFUrls (html : Str) : List Str :=
  let pdfUrls : List Str := []
  let matches_ := findAllString html
  if matches_.isEmpty then pdfUrls
  else (matches_.foldl dedupStep (fun _ => false, pdfUrls)).2

/-- Source: `appendToSlice`. -/
def appendToSlice (slice : List Str) (content : Str) : List Str :=
  slice ++ [content]


/-! ## Library: package `net/url`

`url.Parse` and `url.ParseRequestURI` as of Go 1.22.  Of the parsed URL only
the fields `Scheme`, `Opaque` and `Host` are kept: the program reads nothing
but `Hostname()` and the error.  A `%XX` escape in the host decodes to the code
point `XX`. -/

/-- The function `stringContainsCTLByte`. -/
def stringContainsCTLByte (s : Str) : Bool :=
  s.any (fun c => c.toNat < 32 || c.toNat == 127)

/-- The scan of `getScheme`: `i` is the index of the head of the remaining text. -/
def getSchemeFrom (rawURL : Str) : Nat → Str → Option (Str × Str)
  | _, [] => some ([], rawURL)
  | i, c :: cs =>
    if c.isAlpha then getSchemeFrom rawURL (i + 1) cs
    else if c.isDigit || c == '+' || c == '-' || c == '.' then
      if i == 0 then some ([], rawURL) else getSchemeFrom rawURL (i + 1) cs
    else if c == ':' then
      if i == 0 then none else some (rawURL.take i, cs)
    else some ([], rawURL)

/-- The function `getScheme`: the scheme and the rest, or `none` for the error
"missing protocol scheme". -/
def getScheme (rawURL : Str) : Option (Str × Str) :=
  getSchemeFrom rawURL 0 rawURL

/-- The function `ishex`. -/
def ishex (c : Char) : Bool :=
  ('0' ≤ c && c ≤ '9') || ('a' ≤ c && c ≤ 'f') || ('A' ≤ c && c ≤ 'F')

/-- The function `unhex`. -/
def unhex (c : Char) : Nat :=
  if '0' ≤ c && c ≤ '9' then c.toNat - '0'.toNat
  else if 'a' ≤ c && c ≤ 'f' then c.toNat - 'a'.toNat + 10
  else if 'A' ≤ c && c ≤ 'F' then c.toNat - 'A'.toNat + 10
  else 0

/-- The function `shouldEscape(c, encodeHost)` on an ASCII character. -/
def shouldEscapeHost (c : Char) : Bool :=
  !(c.isAlphanum || "!$&'()*+,;=:[]<>\"-_.~".toList.contains c)

/-- The modes of `unescape` that `Parse` uses; `plain` stands for the modes of
path, user, password and fragment, which only check the shape of the escapes. -/
inductive Encoding
  | plain
  | host
  | zone
  deriving DecidableEq

/-- The function `unescape`: the decoded text, or `none` for an escape error or
an invalid host character. -/
def unescape (mode : Encoding) : Str → Option Str
  | [] => some []
  | '%' :: h1 :: h2 :: rest =>
    if !(ishex h1 && ishex h2) then none
    else if mode = .host && unhex h1 < 8 && !(h1 == '2' && h2 == '5') then none
    else if mode = .zone && !(h1 == '2' && h2 == '5') && 16 * unhex h1 + unhex h2 != 32
        && shouldEscapeHost (Char.ofNat (16 * unhex h1 + unhex h2)) then none
    else (unescape mode rest).map (fun t => Char.ofNat (16 * unhex h1 + unhex h2) :: t)
  | c :: rest =>
    if c == '%' then none
    else if (mode = .host || mode = .zone) && c.toNat < 128 && shouldEscapeHost c then none
    else (unescape mode rest).map (fun t => c :: t)

/-- The function `validOptionalPort`. -/
def validOptionalPort (port : Str) : Bool :=
  match port with
  | [] => true
  | c :: ds => c == ':' && ds.all (fun b => '0' ≤ b && b ≤ '9')

/-- The text before and after the last occurrence of `c`, if there is one. -/
def splitLast (c : Char) (s : Str) : Option (Str × Str) :=
  match s.reverse.dropWhile (fun x => x != c) with
  | [] => none
  | _ :: before => some (before.reverse, (s.reverse.takeWhile (fun x => x != c)).reverse)

/-- The text before and after the first occurrence of `c`, if there is one. -/
def splitFirst (c : Char) (s : Str) : Option (Str × Str) :=
  match s.dropWhile (fun x => x != c) with
  | [] => none
  | _ :: after => some (s.takeWhile (fun x => x != c), after)

/-- The offset of the first occurrence of `sub` in `s`: `strings.Index`. -/
def indexOfSub (sub : Str) : Str → Option Nat
  | [] => if sub.isEmpty then some 0 else none
  | c :: cs =>
    if sub.isPrefixOf (c :: cs) then some 0
    else (indexOfSub sub cs).map (fun k => k + 1)

/-- The function `parseHost`. -/
def parseHost (host : Str) : Option Str :=
  if hasPrefix host ['['] then
    match splitLast ']' host with
    | none => none
    | some (inner, colonPort) =>
      if !validOptionalPort colonPort then none
      else
        match indexOfSub "%25".toList inner with
        | some zone =>
          match unescape .host (host.take zone),
                unescape .zone ((host.take inner.length).drop zone),
                unescape .host (host.drop inner.length) with
          | some host1, some host2, some host3 => some (host1 ++ host2 ++ host3)
          | _, _, _ => none
        | none => unescape .host host
  else
    match splitLast ':' host with
    | some (_, port) =>
      if !validOptionalPort (':' :: port) then none else unescape .host host
    | none => unescape .host host

/-- The function `validUserinfo`. -/
def validUserinfo (s : Str) : Bool :=
  s.all (fun r => r.isAlphanum || "-._:~!$&'()*+,;=%@".toList.contains r)

/-- The function `parseAuthority`, reduced to the host it returns. -/
def parseAuthority (authority : Str) : Option Str :=
  match splitLast '@' authority with
  | none => parseHost authority
  | some (userinfo, hostPart) =>
    match parseHost hostPart with
    | none => none
    | some host =>
      if !validUserinfo userinfo then none
      else
        match splitFirst ':' userinfo with
        | none => (unescape .plain userinfo).map (fun _ => host)
        | some (username, password) =>
          match unescape .plain username, unescape .plain password with
          | some _, some _ => some host
          | _, _ => none

/-- The fields of `url.URL` that are kept. -/
structure URL where
  Scheme : Str
  Opaque : Str
  Host : Str
  deriving DecidableEq

/-- The function `parse(rawURL, viaRequest)`; `none` is an error. -/
def parse (rawURL : Str) (viaRequest : Bool) : Option URL :=
  if stringContainsCTLByte rawURL then none
  else if rawURL.isEmpty && viaRequest then none
  else if rawURL = ['*'] then some { Scheme := [], Opaque := [], Host := [] }
  else
    match getScheme rawURL with
    | none => none
    | some (scheme, rest) =>
      let scheme := scheme.map Char.toLower
      -- in both branches of the query split, `rest` becomes the text before the first `?`
      let rest := rest.takeWhile (fun c => c != '?')
      if !hasPrefix rest ['/'] && !scheme.isEmpty then
        some { Scheme := scheme, Opaque := rest, Host := [] }
      else if !hasPrefix rest ['/'] && viaRequest then none
      else if !hasPrefix rest ['/'] && (rest.takeWhile (fun c => c != '/')).contains ':' then none
      else if (!scheme.isEmpty || (!viaRequest && !hasPrefix rest "///".toList))
          && hasPrefix rest "//".toList then
        let authority := (rest.drop 2).takeWhile (fun c => c != '/')
        let rest := (rest.drop 2).dropWhile (fun c => c != '/')
        match parseAuthority authority with
        | none => none
        | some host => (unescape .plain rest).map (fun _ => { Scheme := scheme, Opaque := [], Host := host })
      else (unescape .plain rest).map (fun _ => { Scheme := scheme, Opaque := [], Host := [] })

/-- The function `url.Parse`. -/
def urlParse (rawURL : Str) : Option URL :=
  let u := rawURL.takeWhile (fun c => c != '#')
  let frag := (rawURL.dropWhile (fun c => c != '#')).drop 1
  match parse u false with
  | none => none
  | some url => if frag.isEmpty then some url else (unescape .plain frag).map (fun _ => url)

/-- The function `url.ParseRequestURI`. -/
def urlParseRequestURI (rawURL : Str) : Option URL :=
  parse rawURL true

/-- The host part of `splitHostPort`. -/
def splitHostPort (hostPort : Str) : Str :=
  let host :=
    match splitLast ':' hostPort with
    | some (before, port) => if validOptionalPort (':' :: port) then before else hostPort
    | none => hostPort
  if hasPrefix host ['['] && hasSuffix host [']'] then (host.drop 1).dropLast else host

/-- The method `(*URL).Hostname`. -/
def URL.Hostname (u : URL) : Str :=
  splitHostPort u.Host

/-! ## `main.go`: URL resolution -/

/-- Source: `getDomainFromURL`. -/
def getDomainFromURL (rawURL : Str) : Str :=
  match urlParse rawURL with
  | none => []
  | some parsedURL => parsedURL.Hostname

/-- Source: `isUrlValid`. -/
def isUrlValid (uri : Str) : Bool :=
  (urlParseRequestURI uri).isSome

/-- The base domain `remoteDomain` of `main`. -/
def remoteDomain : Str := "https://webcdnprd.cascorp.com".toList

/-- The prefixing step of the download loop of `main` (lines 50 to 55): the
value of `urls` when it reaches the validity check. -/
def resolveURL (remoteDomain urls : Str) : Str :=
  let domain := getDomainFromURL urls
  if domain.isEmpty then remoteDomain ++ urls else urls

/-- The arguments of the calls `downloadPDF(urls, pdfOutputDir)` that `main`
makes, in order, when the joined page text is `text` (lines 35 to 61). -/
def downloadTargets (text : Str) : List Str :=
  let finalPDFList := extractPDFUrls text
  let downloadPDFURLSlice := finalPDFList.foldl appendToSlice []
  let downloadPDFURLSlice := removeDuplicatesFromSlice downloadPDFURLSlice
  (downloadPDFURLSlice.map (resolveURL remoteDomain)).filter isUrlValid

/-! ## The environment: file system and network

The file system is a table from cleaned path names to nodes; a file or a
directory can only be created in a directory that exists.  What the network and
the disk answer is not decided by the program; it is given by a `World`.
Log output is not modelled. -/

/-- The content of a file. -/
abbrev Bytes := List Nat

/-- A node of the file system. -/
inductive Node
  | file (data : Bytes)
  | dir
  deriving DecidableEq

/-- The file system. -/
abbrev FS := List (Str × Node)

/-- The node stored under a key. -/
def FS.get : FS → Str → Option Node
  | [], _ => none
  | (k, n) :: rest, name => if k = name then some n else FS.get rest name

/-- Store a node under a key, replacing the node already there. -/
def FS.put : FS → Str → Node → FS
  | [], name, n => [(name, n)]
  | (k, m) :: rest, name, n =>
    if k = name then (k, n) :: rest else (k, m) :: FS.put rest name n

/-- The call `os.Stat(name)`; `none` is an error. -/
def osStat (fs : FS) (name : Str) : Option Node :=
  fs.get (filepathClean name)

/-- An HTTP response as the program reads it: the status code, the value of
`Header.Get("Content-Type")`, what reading the body delivers and whether that
reading ends with an error. -/
structure Response (β : Type) where
  StatusCode : Nat
  ContentType : Str
  body : β
  readErr : Bool

/-- The two results of `http.Get` and of `(*http.Client).Get`: with an error the
response is normally the nil pointer (`none`); without one there is a response. -/
inductive GetResult (β : Type)
  | fail (resp : Option (Response β))
  | ok (resp : Response β)

/-- The answers of the environment. -/
structure World where
  /-- The answer to `http.Get(uri)` for a seed page -/
  pageGet : Str → GetResult Str
  /-- The answer to `client.Get(finalURL)` for a document -/
  pdfGet : Str → GetResult Bytes
  /-- Whether `os.Create(name)` is refused -/
  createFails : Str → Bool
  /-- Whether `buf.WriteTo(out)` fails, and after how many bytes -/
  writeFailsAt : Str → Option Nat
  /-- Whether `os.Mkdir(name)` is refused -/
  mkdirFails : Str → Bool

/-- The directory part of a cleaned path name: the text before its last slash;
`none` for a name without a slash, an entry of the working directory. -/
def parentOf (p : Str) : Option Str :=
  (splitLast '/' p).map Prod.fst

/-- Whether the directory that is to hold the entry `p` exists.  The working
directory and the root always exist; the directories above the working
directory (`..`, `../..`) are outside the table and count as existing; any
other directory must be in the table. -/
def parentExists (fs : FS) (p : Str) : Bool :=
  match parentOf p with
  | none => true
  | some d =>
    d.isEmpty || (splitSlash d []).all (fun e => decide (e = ['.', '.']))
      || decide (fs.get d = some Node.dir)

/-- The call `os.Create(name)`: the file is created empty or truncated; `none`
is an error, which is certain when the directory that is to hold the file does
not exist and when `name` is a directory. -/
def osCreate (w : World) (fs : FS) (name : Str) : Option FS :=
  if w.createFails name then none
  else if !parentExists fs (filepathClean name) then none
  else
    match osStat fs name with
    | some .dir => none
    | _ => some (fs.put (filepathClean name) (.file []))

/-- The call `buf.WriteTo(out)` on the file just created at `name`: the new
file system and whether the write failed. -/
def writeTo (w : World) (fs : FS) (name : Str) (buf : Bytes) : FS × Bool :=
  match w.writeFailsAt name with
  | some n => (fs.put (filepathClean name) (.file (buf.take n)), true)
  | none => (fs.put (filepathClean name) (.file buf), false)

/-- A run of the program either returns or ends in a run-time panic. -/
inductive Run (α : Type)
  | done (a : α)
  | panic
  deriving DecidableEq

/-! ## `main.go`: the downloader -/

/-- Source: `fileExists`. -/
def fileExists (fs : FS) (filename : Str) : Bool :=
  match osStat fs filename with
  | none => false
  | some info => !(info = .dir)

/-- Source: `directoryExists`. -/
def directoryExists (fs : FS) (path : Str) : Bool :=
  match osStat fs path with
  | none => false
  | some directory => directory = .dir

/-- Source: `createDirectory`. -/
def createDirectory (w : World) (fs : FS) (path : Str) : FS :=
  if w.mkdirFails path || (osStat fs path).isSome
      || !parentExists fs (filepathClean path) then fs
  else fs.put (filepathClean path) .dir

/-- What a call of `downloadPDF` leaves behind: its return value, the file
system, and the URLs it requested from the network. -/
structure DownloadResult where
  ok : Bool
  fs : FS
  requests : List Str
  deriving DecidableEq

/-- Source: `downloadPDF`. -/
def downloadPDF (ul : Char → Char) (w : World) (fs : FS) (finalURL outputDir : Str) :
    DownloadResult :=
  let filename := toLower ul (urlToFilename ul finalURL)
  let filePath := filepathJoin outputDir filename
  if fileExists fs filePath then ⟨false, fs, []⟩
  else
    match w.pdfGet finalURL with
    | .fail _ => ⟨false, fs, [finalURL]⟩
    | .ok resp =>
      if resp.StatusCode != 200 then ⟨false, fs, [finalURL]⟩
      else if !contains resp.ContentType "application/pdf".toList then ⟨false, fs, [finalURL]⟩
      else
        let buf := resp.body
        let written := buf.length
        if resp.readErr then ⟨false, fs, [finalURL]⟩
        else if written == 0 then ⟨false, fs, [finalURL]⟩
        else
          match osCreate w fs filePath with
          | none => ⟨false, fs, [finalURL]⟩
          | some fs1 =>
            match writeTo w fs1 filePath buf with
            | (fs2, true) => ⟨false, fs2, [finalURL]⟩
            | (fs2, false) => ⟨true, fs2, [finalURL]⟩

/-! ## `main.go`: the page fetch and the driver -/

/-- Source: `getDataFromURL`.  After a failed request the error is logged and
the function goes on to read `response.Body`; with the nil response that is a
nil pointer dereference. -/
def getDataFromURL (w : World) (uri : Str) : Run Str :=
  match w.pageGet uri with
  | .fail none => .panic
  | .fail (some response) => .done response.body
  | .ok response => .done response.body

/-- The first loop of `main` (lines 29 to 32). -/
def fetchAll (w : World) : List Str → List Str → Run (List Str)
  | [], getData => .done getData
  | uri :: rest, getData =>
    match getDataFromURL w uri with
    | .panic => .panic
    | .done data => fetchAll w rest (getData ++ [data])

/-- The last loop of `main` (lines 49 to 61), from the slice of resolved URLs
that passed `isUrlValid`. -/
def downloadAll (ul : Char → Char) (w : World) (pdfOutputDir : Str) : FS → List Str → FS
  | fs, [] => fs
  | fs, urls :: rest => downloadAll ul w pdfOutputDir (downloadPDF ul w fs urls pdfOutputDir).fs rest

/-- The seed pages `remoteAPIURL` of `main`. -/
def remoteAPIURL : List Str := ["https://www.cascorp.com/us/en/msds".toList]

/-- Source: `main`, for a given list of seed pages. -/
def mainWith (ul : Char → Char) (w : World) (seeds : List Str) (fs : FS) : Run FS :=
  let pdfOutputDir := "PDFs/".toList
  let fs := if !directoryExists fs pdfOutputDir then createDirectory w fs pdfOutputDir else fs
  match fetchAll w seeds [] with
  | .panic => .panic
  | .done getData =>
    .done (downloadAll ul w pdfOutputDir fs (downloadTargets (['\n'].intercalate getData)))

/-- Source: `main`. -/
def main (ul : Char → Char) (w : World) (fs : FS) : Run FS :=
  mainWith ul w remoteAPIURL fs

/-! ## Vocabulary of the statements -/

/-- The position of the first occurrence of `a` in `l`; the length of `l` when
`a` does not occur. -/
def firstIndex (a : Str) : List Str → Nat
  | [] => 0
  | x :: xs => if x = a then 0 else firstIndex a xs + 1

/-- The character class `[A-Za-z0-9]`. -/
def isAlnum (c : Char) : Bool :=
  ('a' ≤ c && c ≤ 'z') || ('A' ≤ c && c ≤ 'Z') || ('0' ≤ c && c ≤ '9')

/-- The words of a list one after another, each preceded by the separator:
`w0 ++ joinTail sep [w1, w2]` is `w0`, `w1`, `w2` joined by single separators. -/
def joinTail (sep : Char) : List Str → Str
  | [] => []
  | w :: ws => sep :: (w ++ joinTail sep ws)

/-- The shape of the stack of elements that `filepath.Clean` keeps: names on
top of `..` elements, no `..` at all under the root, and no element that is
empty, is `.` or holds a slash. -/
def CleanStack (rooted : Bool) (out : List Str) : Prop :=
  (∀ e ∈ out, e ≠ [] ∧ e ≠ ['.'] ∧ ∀ c ∈ e, c ≠ '/')
  ∧ ∃ names dds, out = names ++ dds ∧ (∀ e ∈ dds, e = ['.', '.'])
      ∧ (∀ e ∈ names, e ≠ ['.', '.']) ∧ (rooted = true → dds = [])

/-- The invariant of the de-duplication loop: the map marks exactly the strings
of the slice built so far. -/
def MapTracks (st : BoolMap × List Str) : Prop :=
  ∀ k, st.1 k = true ↔ k ∈ st.2

/-! ## Sample environments used to instantiate the theorems -/

/-- A response of status 200 that carries an HTML page. -/
def htmlResponse : Response Bytes :=
  { StatusCode := 200, ContentType := "text/html".toList, body := [60, 104, 62], readErr := false }

/-- A response of status 200 that carries a four-byte PDF document. -/
def pdfResponse : Response Bytes :=
  { StatusCode := 200, ContentType := "application/pdf".toList, body := [37, 80, 68, 70],
    readErr := false }

/-- A world whose server answers every document request with `resp` and whose
disk accepts the creation of files; `wf` tells where a write to a file breaks off. -/
def serverWorld (resp : Response Bytes) (wf : Option Nat) : World :=
  { pageGet := fun _ => .fail none
    pdfGet := fun _ => .ok resp
    createFails := fun _ => false
    writeFailsAt := fun _ => wf
    mkdirFails := fun _ => false }

/-- A world without network: every request ends in a transport error. -/
def offlineWorld : World :=
  { pageGet := fun _ => .fail none
    pdfGet := fun _ => .fail none
    createFails := fun _ => false
    writeFailsAt := fun _ => none
    mkdirFails := fun _ => false }

/-- A file system in which the output directory of `main` exists and is empty. -/
def outputDirFS : FS := [("PDFs".toList, Node.dir)]

/-- A file system in which the output directory holds the document of the examples. -/
def downloadedFS : FS :=
  [("PDFs".toList, Node.dir), ("PDFs/msds_sheet.pdf.pdf".toList, Node.file [1])]

/-- A file system with the empty output directory and a file outside it. -/
def systemFS : FS :=
  [("PDFs".toList, Node.dir), ("etc".toList, Node.dir), ("etc/passwd".toList, Node.file [1])]

/-- The URL of the examples. -/
def sampleURL : Str := "https://x.test/msds-sheet.pdf".toList

/-- The output directory of `main`. -/
def sampleDir : Str := "PDFs/".toList

/-! ## Theorems -/

theorem fs_get_put_same (fs : FS) (k : Str) (n : Node) : (fs.put k n).get k = some n := by
  induction fs with
  | nil => simp [FS.put, FS.get]
  | cons e rest ih =>
    obtain ⟨k2, m⟩ := e
    by_cases h : k2 = k
    · simp [FS.put, FS.get, h]
    · simp [FS.put, FS.get, h, ih]

theorem fs_get_put_other (fs : FS) (k k2 : Str) (n : Node) (h : k2 ≠ k) :
    (fs.put k n).get k2 = fs.get k2 := by
  induction fs with
  | nil => simp [FS.put, FS.get, Ne.symm h]
  | cons e rest ih =>
    obtain ⟨k3, m⟩ := e
    by_cases h3 : k3 = k
    · subst h3
      simp [FS.put, FS.get, Ne.symm h]
    · by_cases h4 : k3 = k2
      · subst h4
        simp [FS.put, FS.get, h3]
      · simp [FS.put, FS.get, h3, h4, ih]

theorem fs_put_put (fs : FS) (k : Str) (n m : Node) : (fs.put k n).put k m = fs.put k m := by
  induction fs with
  | nil => simp [FS.put]
  | cons e rest ih =>
    obtain ⟨k2, x⟩ := e
    by_cases h : k2 = k
    · simp [FS.put, h]
    · simp [FS.put, h, ih]

/-- C1: when the response to the document request fails a validation step of
`downloadPDF` (a status other than 200, a Content-Type without
`application/pdf`, or a body of zero bytes), `downloadPDF` returns false and the
file system after the call is the file system before it.  This holds in every
file system state, in particular when no regular file exists at the
destination. -/
theorem downloadPDF_invalid_response_changes_nothing (ul : Char → Char) (w : World) (fs : FS)
    (url dir : Str) (resp : Response Bytes) (hget : w.pdfGet url = .ok resp)
    (hbad : resp.StatusCode ≠ 200 ∨ contains resp.ContentType "application/pdf".toList = false
      ∨ resp.body.length = 0) :
    (downloadPDF ul w fs url dir).ok = false ∧ (downloadPDF ul w fs url dir).fs = fs := by
  have hlen : resp.body.length = 0 → resp.body = [] := List.length_eq_zero.mp
  unfold downloadPDF
  simp only [hget]
  split_ifs <;> simp_all

/-- An HTML page served with status 200: the call fails and the empty file system stays empty. -/
theorem downloadPDF_invalid_response_changes_nothing_witness :
    (serverWorld htmlResponse none).pdfGet sampleURL = .ok htmlResponse
    ∧ (htmlResponse.StatusCode ≠ 200
        ∨ contains htmlResponse.ContentType "application/pdf".toList = false
        ∨ htmlResponse.body.length = 0)
    ∧ ((downloadPDF id (serverWorld htmlResponse none) [] sampleURL sampleDir).ok = false
        ∧ (downloadPDF id (serverWorld htmlResponse none) [] sampleURL sampleDir).fs = []) :=
  ⟨rfl, Or.inr (Or.inl (by decide)),
    downloadPDF_invalid_response_changes_nothing id (serverWorld htmlResponse none) [] sampleURL
      sampleDir htmlResponse rfl (Or.inr (Or.inl (by decide)))⟩

/-! ### Characters -/

theorem char_le_iff (a b : Char) : a ≤ b ↔ a.toNat ≤ b.toNat := by
  rw [Char.le_def, UInt32.le_def, BitVec.le_def]
  rfl

theorem toNat_ofNat_small (n : Nat) (h : n < 55296) : (Char.ofNat n).toNat = n := by
  have hv : n.isValidChar := Or.inl h
  unfold Char.ofNat
  rw [dif_pos hv]
  simp [Char.ofNatAux, Char.toNat, UInt32.toNat]

theorem isLowerAlnum_range (c : Char) (h : isLowerAlnum c = true) :
    (97 ≤ c.toNat ∧ c.toNat ≤ 122) ∨ (48 ≤ c.toNat ∧ c.toNat ≤ 57) := by
  simp only [isLowerAlnum, Bool.or_eq_true, Bool.and_eq_true, decide_eq_true_eq, char_le_iff] at h
  have e1 : 'a'.toNat = 97 := rfl
  have e2 : 'z'.toNat = 122 := rfl
  have e3 : '0'.toNat = 48 := rfl
  have e4 : '9'.toNat = 57 := rfl
  rw [e1, e2, e3, e4] at h
  exact h

theorem toLowerRune_of_not_upper (ul : Char → Char) (c : Char) (h128 : c.toNat < 128)
    (hup : ¬ (65 ≤ c.toNat ∧ c.toNat ≤ 90)) : toLowerRune ul c = c := by
  unfold toLowerRune
  rw [if_pos h128]
  unfold Char.toLower
  simp only
  rw [if_neg]
  exact hup

theorem toLowerRune_lowerAlnum (ul : Char → Char) (c : Char) (h : isLowerAlnum c = true) :
    toLowerRune ul c = c := by
  have := isLowerAlnum_range c h
  exact toLowerRune_of_not_upper ul c (by omega) (by omega)

/-- Go's ASCII lowercasing applied twice is the same as applied once. -/
theorem char_toLower_idem (c : Char) : c.toLower.toLower = c.toLower := by
  unfold Char.toLower
  simp only
  split_ifs with h1 h2
  · exfalso
    have := toNat_ofNat_small (c.toNat + 32) (by omega)
    omega
  · rfl
  · rfl

theorem char_toLower_lt (c : Char) (h : c.toNat < 128) : c.toLower.toNat < 128 := by
  unfold Char.toLower
  simp only
  split_ifs with h1
  · rw [toNat_ofNat_small _ (by omega)]
    omega
  · exact h

/-- With the identity beyond ASCII, lowercasing a rune twice is lowercasing it once. -/
theorem toLowerRune_id_idem (c : Char) : toLowerRune id (toLowerRune id c) = toLowerRune id c := by
  unfold toLowerRune
  by_cases h : c.toNat < 128
  · rw [if_pos h, if_pos (char_toLower_lt c h), char_toLower_idem]
  · simp [h]

/-! ### The sanitizer -/

theorem mem_replaceRuns (p : Char → Bool) (rep : Str) (b : Bool) (s : Str) (c : Char)
    (h : c ∈ replaceRuns p rep b s) : c ∈ rep ∨ (c ∈ s ∧ p c = false) := by
  induction s generalizing b with
  | nil => simp [replaceRuns] at h
  | cons x xs ih =>
    unfold replaceRuns at h
    by_cases hp : p x = true
    · rw [if_pos hp] at h
      by_cases hb : b = true
      · rw [if_pos hb] at h
        rcases ih true h with h1 | h1
        · exact Or.inl h1
        · exact Or.inr ⟨List.mem_cons_of_mem _ h1.1, h1.2⟩
      · rw [if_neg hb, List.mem_append] at h
        rcases h with h | h
        · exact Or.inl h
        · rcases ih true h with h1 | h1
          · exact Or.inl h1
          · exact Or.inr ⟨List.mem_cons_of_mem _ h1.1, h1.2⟩
    · rw [if_neg hp, List.mem_cons] at h
      rcases h with h | h
      · subst h
        exact Or.inr ⟨List.mem_cons_self _ _, by simpa using hp⟩
      · rcases ih false h with h1 | h1
        · exact Or.inl h1
        · exact Or.inr ⟨List.mem_cons_of_mem _ h1.1, h1.2⟩

theorem deleteAll_sublist (old : Str) (n : Nat) (s : Str) : (deleteAll old n s).Sublist s := by
  induction s generalizing n with
  | nil => simp [deleteAll]
  | cons x xs ih =>
    cases n with
    | zero =>
      unfold deleteAll
      split_ifs
      · exact (ih _).cons _
      · exact (ih _).cons₂ _
    | succ m =>
      unfold deleteAll
      exact (ih _).cons _

theorem removeSubstring_sublist (input toRemove : Str) :
    (removeSubstring input toRemove).Sublist input := by
  unfold removeSubstring replaceAllWithEmpty
  split_ifs
  · exact List.Sublist.refl _
  · exact deleteAll_sublist _ _ _

theorem trimPrefix_sublist (s pre : Str) : (trimPrefix s pre).Sublist s := by
  unfold trimPrefix
  split_ifs
  · exact List.drop_sublist _ _
  · exact List.Sublist.refl _

/-- The stem of the file name has only characters of `[a-z0-9_]`. -/
theorem safeStem_chars (ul : Char → Char) (u : Str) :
    ∀ c ∈ safeStem ul u, isLowerAlnum c = true ∨ c = '_' := by
  intro c hc
  unfold safeStem at hc
  simp only [List.foldl_cons, List.foldl_nil] at hc
  have h1 := (removeSubstring_sublist _ _).subset hc
  have h2 := (trimPrefix_sublist _ _).subset h1
  rcases mem_replaceRuns _ _ _ _ _ h2 with h3 | ⟨h3, _⟩
  · exact Or.inr (by simpa using h3)
  · rcases mem_replaceRuns _ _ _ _ _ h3 with h4 | ⟨_, h4⟩
    · exact Or.inr (by simpa using h4)
    · exact Or.inl (by simpa using h4)

theorem mem_extScan (rev acc : Str) (c : Char) (h : c ∈ extScan rev acc) : c ∈ rev ∨ c ∈ acc := by
  induction rev generalizing acc with
  | nil => simp [extScan] at h
  | cons x xs ih =>
    unfold extScan at h
    split_ifs at h with h1 h2
    · simp at h
    · rw [List.mem_cons] at h
      rcases h with h | h
      · have hx : x = '.' := by simpa using h2
        exact Or.inl (by rw [h, hx]; exact List.mem_cons_self _ _)
      · exact Or.inr h
    · rcases ih _ h with h3 | h3
      · exact Or.inl (List.mem_cons_of_mem _ h3)
      · rw [List.mem_cons] at h3
        rcases h3 with h3 | h3
        · exact Or.inl (by rw [h3]; exact List.mem_cons_self _ _)
        · exact Or.inr h3

theorem mem_getFileExtension (p : Str) (c : Char) (h : c ∈ getFileExtension p) : c ∈ p := by
  unfold getFileExtension filepathExt at h
  rcases mem_extScan _ _ _ h with h | h
  · exact List.mem_reverse.mp h
  · simp at h

/-- The shape of the result of `urlToFilename`. -/
theorem urlToFilename_eq (ul : Char → Char) (u : Str) :
    urlToFilename ul u
      = safeStem ul u ++ getFileExtension (toLower ul u) ++ ['.', 'p', 'd', 'f'] := rfl

/-- When lowercasing is idempotent, the file name is already in lower case. -/
theorem toLower_urlToFilename (ul : Char → Char)
    (hul : ∀ c, toLowerRune ul (toLowerRune ul c) = toLowerRune ul c) (u : Str) :
    toLower ul (urlToFilename ul u) = urlToFilename ul u := by
  unfold toLower
  conv_rhs => rw [← List.map_id (urlToFilename ul u)]
  apply List.map_congr_left
  intro c hc
  rw [urlToFilename_eq, List.mem_append, List.mem_append] at hc
  rcases hc with (hc | hc) | hc
  · rcases safeStem_chars ul u c hc with h | h
    · exact toLowerRune_lowerAlnum ul c h
    · subst h
      exact toLowerRune_of_not_upper ul _ (by decide) (by decide)
  · have := mem_getFileExtension _ _ hc
    unfold toLower at this
    obtain ⟨c0, _, rfl⟩ := List.mem_map.mp this
    exact hul c0
  · simp only [List.mem_cons, List.mem_singleton, List.not_mem_nil, or_false] at hc
    rcases hc with h | h | h | h <;> subst h <;>
      exact toLowerRune_of_not_upper ul _ (by decide) (by decide)

/-! ### The downloader -/

theorem osCreate_eq_some (w : World) (fs fs1 : FS) (name : Str) (h : osCreate w fs name = some fs1) :
    fs1 = fs.put (filepathClean name) (.file []) := by
  unfold osCreate at h
  split_ifs at h
  split at h
  · simp at h
  · simpa using h.symm

theorem osCreate_not_dir (w : World) (fs : FS) (name : Str) (h : osCreate w fs name ≠ none) :
    osStat fs name ≠ some .dir := by
  intro hd
  apply h
  unfold osCreate
  split_ifs
  · rfl
  · rfl
  · rw [hd]

/-- The result of a run that passes every check, creates the file and fails in
the write after `n` bytes. -/
theorem downloadPDF_write_failure (ul : Char → Char) (w : World) (fs : FS) (url dir : Str)
    (n : Nat) (resp : Response Bytes)
    (hfe : fileExists fs (filepathJoin dir (toLower ul (urlToFilename ul url))) = false)
    (hg : w.pdfGet url = .ok resp) (hst : resp.StatusCode = 200)
    (hct : contains resp.ContentType "application/pdf".toList = true)
    (hre : resp.readErr = false) (hbody : resp.body ≠ [])
    (hc : osCreate w fs (filepathJoin dir (toLower ul (urlToFilename ul url))) ≠ none)
    (hw : w.writeFailsAt (filepathJoin dir (toLower ul (urlToFilename ul url))) = some n) :
    downloadPDF ul w fs url dir
      = ⟨false, fs.put (filepathClean (filepathJoin dir (toLower ul (urlToFilename ul url))))
          (.file (resp.body.take n)), [url]⟩ := by
  have hlen : (resp.body.length == 0) = false := by simpa using hbody
  have hst2 : (resp.StatusCode != 200) = false := by simp [hst]
  cases hc2 : osCreate w fs (filepathJoin dir (toLower ul (urlToFilename ul url))) with
  | none => exact absurd hc2 hc
  | some fs1 =>
    have hfs1 := osCreate_eq_some w fs fs1 _ hc2
    unfold downloadPDF
    simp only [hfe, hg, hst2, hct, hre, hlen, hc2, writeTo, hw, hfs1, fs_put_put,
      Bool.false_eq_true, if_false, Bool.not_true]

/-- C2, counterexample: the output directory exists and is empty, the server
delivers a valid four-byte PDF, the file is created, and the write breaks off
after two bytes.  `downloadPDF` returns false, and a file that did not exist
before now exists at the destination, holding the two bytes. -/
theorem downloadPDF_failed_write_leaves_file :
    (downloadPDF id (serverWorld pdfResponse (some 2)) outputDirFS sampleURL sampleDir).ok = false
    ∧ osStat outputDirFS "PDFs/msds_sheet.pdf.pdf".toList = none
    ∧ fileExists outputDirFS "PDFs/msds_sheet.pdf.pdf".toList = false
    ∧ (downloadPDF id (serverWorld pdfResponse (some 2)) outputDirFS sampleURL sampleDir).fs
        = [("PDFs".toList, Node.dir), ("PDFs/msds_sheet.pdf.pdf".toList, Node.file [37, 80])]
    ∧ fileExists
        (downloadPDF id (serverWorld pdfResponse (some 2)) outputDirFS sampleURL sampleDir).fs
        "PDFs/msds_sheet.pdf.pdf".toList = true := by
  decide

/-- C2, amended: a run of `downloadPDF` that passes every check, creates the
file and then fails in the write returns false and leaves the file behind: the
destination, at which nothing existed before, afterwards holds a regular file
with the part of the body written before the error, and nothing else has
changed; the code never removes the file it created.  Every other run that
returns false leaves the file system exactly as it was. -/
theorem downloadPDF_failure_effect (ul : Char → Char) (w : World) (fs : FS) (url dir : Str) :
    (∀ (n : Nat) (resp : Response Bytes),
        fileExists fs (filepathJoin dir (toLower ul (urlToFilename ul url))) = false →
        w.pdfGet url = .ok resp →
        resp.StatusCode = 200 →
        contains resp.ContentType "application/pdf".toList = true →
        resp.readErr = false →
        resp.body ≠ [] →
        osCreate w fs (filepathJoin dir (toLower ul (urlToFilename ul url))) ≠ none →
        w.writeFailsAt (filepathJoin dir (toLower ul (urlToFilename ul url))) = some n →
          (downloadPDF ul w fs url dir).ok = false
          ∧ osStat fs (filepathJoin dir (toLower ul (urlToFilename ul url))) = none
          ∧ osStat (downloadPDF ul w fs url dir).fs
              (filepathJoin dir (toLower ul (urlToFilename ul url)))
              = some (.file (resp.body.take n))
          ∧ fileExists (downloadPDF ul w fs url dir).fs
              (filepathJoin dir (toLower ul (urlToFilename ul url))) = true
          ∧ ∀ k, k ≠ filepathClean (filepathJoin dir (toLower ul (urlToFilename ul url))) →
              (downloadPDF ul w fs url dir).fs.get k = fs.get k)
    ∧ ((downloadPDF ul w fs url dir).ok = false →
        (¬ ∃ (n : Nat) (resp : Response Bytes),
          fileExists fs (filepathJoin dir (toLower ul (urlToFilename ul url))) = false
          ∧ w.pdfGet url = .ok resp
          ∧ resp.StatusCode = 200
          ∧ contains resp.ContentType "application/pdf".toList = true
          ∧ resp.readErr = false
          ∧ resp.body ≠ []
          ∧ osCreate w fs (filepathJoin dir (toLower ul (urlToFilename ul url))) ≠ none
          ∧ w.writeFailsAt (filepathJoin dir (toLower ul (urlToFilename ul url))) = some n) →
        (downloadPDF ul w fs url dir).fs = fs) := by
  constructor
  · intro n resp hfe hg hst hct hre hbody hc hw
    rw [downloadPDF_write_failure ul w fs url dir n resp hfe hg hst hct hre hbody hc hw]
    have hafter : osStat (fs.put
        (filepathClean (filepathJoin dir (toLower ul (urlToFilename ul url))))
        (.file (resp.body.take n))) (filepathJoin dir (toLower ul (urlToFilename ul url)))
        = some (.file (resp.body.take n)) := by
      unfold osStat
      exact fs_get_put_same _ _ _
    refine ⟨rfl, ?_, hafter, ?_, fun k hk => fs_get_put_other _ _ _ _ hk⟩
    · have hnd := osCreate_not_dir w fs _ hc
      unfold fileExists at hfe
      cases hs : osStat fs (filepathJoin dir (toLower ul (urlToFilename ul url))) with
      | none => rfl
      | some node =>
        rw [hs] at hfe hnd
        cases node with
        | dir => exact absurd rfl hnd
        | file data => simp at hfe
    · unfold fileExists
      simp only [hafter]
      rfl
  · intro hfail hno
    unfold downloadPDF at hfail ⊢
    simp only at hfail ⊢
    split_ifs at hfail ⊢ with h1
    · rfl
    · cases hg : w.pdfGet url with
      | fail r => rfl
      | ok resp =>
        simp only [hg] at hfail ⊢
        split_ifs at hfail ⊢ with h2 h3 h4 h5
        · rfl
        · rfl
        · rfl
        · rfl
        · cases hc : osCreate w fs (filepathJoin dir (toLower ul (urlToFilename ul url))) with
          | none => rfl
          | some fs1 =>
            simp only [hc] at hfail ⊢
            cases hw : w.writeFailsAt (filepathJoin dir (toLower ul (urlToFilename ul url))) with
            | none => simp [writeTo, hw] at hfail
            | some n =>
              exfalso
              apply hno
              refine ⟨n, resp, by simpa using h1, hg, by simpa using h2, by simpa using h3,
                by simpa using h4, by simpa using h5, ?_, hw⟩
              rw [hc]
              simp

/-- The failing write of the counterexample: every check passes, the file is
created in the existing output directory, and the write breaks off. -/
theorem downloadPDF_failure_effect_witness :
    fileExists outputDirFS (filepathJoin sampleDir (toLower id (urlToFilename id sampleURL)))
      = false
    ∧ (serverWorld pdfResponse (some 2)).pdfGet sampleURL = .ok pdfResponse
    ∧ pdfResponse.StatusCode = 200
    ∧ contains pdfResponse.ContentType "application/pdf".toList = true
    ∧ pdfResponse.readErr = false
    ∧ pdfResponse.body ≠ []
    ∧ osCreate (serverWorld pdfResponse (some 2)) outputDirFS
        (filepathJoin sampleDir (toLower id (urlToFilename id sampleURL))) ≠ none
    ∧ (serverWorld pdfResponse (some 2)).writeFailsAt
        (filepathJoin sampleDir (toLower id (urlToFilename id sampleURL))) = some 2
    ∧ ((downloadPDF id (serverWorld pdfResponse (some 2)) outputDirFS sampleURL sampleDir).ok
          = false
      ∧ osStat outputDirFS (filepathJoin sampleDir (toLower id (urlToFilename id sampleURL)))
          = none
      ∧ osStat
          (downloadPDF id (serverWorld pdfResponse (some 2)) outputDirFS sampleURL sampleDir).fs
          (filepathJoin sampleDir (toLower id (urlToFilename id sampleURL)))
          = some (.file (pdfResponse.body.take 2))
      ∧ fileExists
          (downloadPDF id (serverWorld pdfResponse (some 2)) outputDirFS sampleURL sampleDir).fs
          (filepathJoin sampleDir (toLower id (urlToFilename id sampleURL))) = true
      ∧ ∀ k, k ≠ filepathClean
            (filepathJoin sampleDir (toLower id (urlToFilename id sampleURL))) →
          (downloadPDF id (serverWorld pdfResponse (some 2)) outputDirFS sampleURL sampleDir).fs.get
            k = outputDirFS.get k) :=
  ⟨by decide, rfl, by decide, by decide, by decide, by decide, by decide, rfl,
    (downloadPDF_failure_effect id (serverWorld pdfResponse (some 2)) outputDirFS sampleURL
      sampleDir).1 2 pdfResponse (by decide) rfl (by decide) (by decide) (by decide) (by decide)
      (by decide) rfl⟩

/-- A file found at the destination makes `downloadPDF` return at once. -/
theorem downloadPDF_skip (ul : Char → Char) (w : World) (fs : FS) (url dir : Str)
    (h : fileExists fs (filepathJoin dir (toLower ul (urlToFilename ul url))) = true) :
    downloadPDF ul w fs url dir = ⟨false, fs, []⟩ := by
  unfold downloadPDF
  simp [h]

/-- After a successful call a regular file is at the destination. -/
theorem downloadPDF_ok_fileExists (ul : Char → Char) (w : World) (fs : FS) (url dir : Str)
    (hok : (downloadPDF ul w fs url dir).ok = true) :
    fileExists (downloadPDF ul w fs url dir).fs
      (filepathJoin dir (toLower ul (urlToFilename ul url))) = true := by
  unfold downloadPDF at hok ⊢
  simp only at hok ⊢
  split_ifs at hok ⊢ with h1
  cases hg : w.pdfGet url with
  | fail r => simp [hg] at hok
  | ok resp =>
    simp only [hg] at hok ⊢
    split_ifs at hok ⊢ with h2 h3 h4 h5
    cases hc : osCreate w fs (filepathJoin dir (toLower ul (urlToFilename ul url))) with
    | none => simp [hc] at hok
    | some fs1 =>
      simp only [hc] at hok ⊢
      cases hw : w.writeFailsAt (filepathJoin dir (toLower ul (urlToFilename ul url))) with
      | some n => simp [writeTo, hw] at hok
      | none => simp [writeTo, hw, fileExists, osStat, fs_get_put_same]

/-- C3: `downloadPDF` is idempotent on the file system.  If a first call
returns true, a second call with the same arguments on the resulting state,
whatever the network would answer, returns false, requests nothing and leaves
the file system unchanged.  More generally, whenever a regular file exists at
`filepath.Join(outputDir, urlToFilename(url))`, the call requests nothing and
changes nothing; the program lowercases the file name once more before the
check, which changes nothing as lowercasing is idempotent. -/
theorem downloadPDF_idempotent (ul : Char → Char) (w1 w2 : World) (fs : FS) (url dir : Str) :
    ((downloadPDF ul w1 fs url dir).ok = true →
      downloadPDF ul w2 (downloadPDF ul w1 fs url dir).fs url dir
        = ⟨false, (downloadPDF ul w1 fs url dir).fs, []⟩)
    ∧ ((∀ c, toLowerRune ul (toLowerRune ul c) = toLowerRune ul c) →
      fileExists fs (filepathJoin dir (urlToFilename ul url)) = true →
      downloadPDF ul w2 fs url dir = ⟨false, fs, []⟩) := by
  constructor
  · intro hok
    exact downloadPDF_skip ul w2 _ url dir (downloadPDF_ok_fileExists ul w1 fs url dir hok)
  · intro hul hex
    apply downloadPDF_skip
    rw [toLower_urlToFilename ul hul]
    exact hex

/-- A successful download into the empty output directory followed by a second
call, and a call on a file system that already holds the file. -/
theorem downloadPDF_idempotent_witness :
    (downloadPDF id (serverWorld pdfResponse none) outputDirFS sampleURL sampleDir).ok = true
    ∧ downloadPDF id (serverWorld htmlResponse none)
        (downloadPDF id (serverWorld pdfResponse none) outputDirFS sampleURL sampleDir).fs
        sampleURL sampleDir
        = ⟨false,
            (downloadPDF id (serverWorld pdfResponse none) outputDirFS sampleURL sampleDir).fs, []⟩
    ∧ (∀ c, toLowerRune id (toLowerRune id c) = toLowerRune id c)
    ∧ fileExists downloadedFS (filepathJoin sampleDir (urlToFilename id sampleURL)) = true
    ∧ downloadPDF id (serverWorld htmlResponse none) downloadedFS sampleURL sampleDir
        = ⟨false, downloadedFS, []⟩ :=
  ⟨by decide,
    (downloadPDF_idempotent id (serverWorld pdfResponse none) (serverWorld htmlResponse none)
      outputDirFS sampleURL sampleDir).1 (by decide),
    toLowerRune_id_idem, by decide,
    (downloadPDF_idempotent id (serverWorld pdfResponse none) (serverWorld htmlResponse none)
      downloadedFS sampleURL sampleDir).2 toLowerRune_id_idem (by decide)⟩

/-! ### The file name -/

/-- C4, counterexample: for the URL `https://x.test/msds-sheet.pdf` the file
name is `msds_sheet.pdf.pdf`, which is not a string over `[a-z0-9_]` followed
by a single `.pdf`: what precedes the final `.pdf` contains a dot. -/
theorem urlToFilename_not_plain :
    urlToFilename id "https://x.test/msds-sheet.pdf".toList = "msds_sheet.pdf.pdf".toList
    ∧ ¬ ∃ stem : Str, urlToFilename id "https://x.test/msds-sheet.pdf".toList
          = stem ++ ".pdf".toList ∧ ∀ c ∈ stem, isLowerAlnum c = true ∨ c = '_' := by
  refine ⟨by decide, ?_⟩
  rintro ⟨stem, h1, h2⟩
  have e : urlToFilename id "https://x.test/msds-sheet.pdf".toList
      = "msds_sheet.pdf".toList ++ ".pdf".toList := by decide
  rw [e] at h1
  have h3 : "msds_sheet.pdf".toList = stem := List.append_cancel_right h1
  have h4 := h2 '.' (by rw [← h3]; decide)
  revert h4
  decide

/-- C4, amended: for every URL string the file name is non-empty, is in lower
case (given that lowercasing is idempotent) and ends with `.pdf`.  When the
extension that `getFileExtension` finds in the lowercased URL is empty or is a
dot followed by characters of `[a-z0-9]`, as for a URL that ends in `.pdf`, the
file name is a stem over `[a-z0-9_]`, followed by that extension, followed by
`.pdf`, and every character of it is in `[a-z0-9_.]`.  Nothing is said about
the characters of the file name for any other extension. -/
theorem urlToFilename_shape (ul : Char → Char) (u : Str) :
    urlToFilename ul u ≠ []
    ∧ ((∀ c, toLowerRune ul (toLowerRune ul c) = toLowerRune ul c) →
        toLower ul (urlToFilename ul u) = urlToFilename ul u)
    ∧ ".pdf".toList <:+ urlToFilename ul u
    ∧ ((∀ c ∈ getFileExtension (toLower ul u), isLowerAlnum c = true ∨ c = '.') →
        (∃ stem : Str,
          urlToFilename ul u = stem ++ getFileExtension (toLower ul u) ++ ".pdf".toList
          ∧ ∀ c ∈ stem, isLowerAlnum c = true ∨ c = '_')
        ∧ ∀ c ∈ urlToFilename ul u, isLowerAlnum c = true ∨ c = '_' ∨ c = '.') := by
  refine ⟨?_, fun h => toLower_urlToFilename ul h u, ⟨_, urlToFilename_eq ul u⟩, ?_⟩
  · rw [urlToFilename_eq]
    simp
  · intro hext
    refine ⟨⟨safeStem ul u, rfl, safeStem_chars ul u⟩, ?_⟩
    intro c hc
    rw [urlToFilename_eq, List.mem_append, List.mem_append] at hc
    rcases hc with (hc | hc) | hc
    · rcases safeStem_chars ul u c hc with h | h
      · exact Or.inl h
      · exact Or.inr (Or.inl h)
    · rcases hext c hc with h | h
      · exact Or.inl h
      · exact Or.inr (Or.inr h)
    · simp only [List.mem_cons, List.mem_singleton, List.not_mem_nil, or_false] at hc
      rcases hc with h | h | h | h <;> subst h <;> decide

/-- The file name `msds_sheet.pdf.pdf`: lower case, the stem `msds_sheet`, the
extension `.pdf` of the URL and the final `.pdf`, all over `[a-z0-9_.]`. -/
theorem urlToFilename_shape_witness :
    (∀ c, toLowerRune id (toLowerRune id c) = toLowerRune id c)
    ∧ toLower id (urlToFilename id sampleURL) = urlToFilename id sampleURL
    ∧ (∀ c ∈ getFileExtension (toLower id sampleURL), isLowerAlnum c = true ∨ c = '.')
    ∧ (∃ stem : Str,
        urlToFilename id sampleURL = stem ++ getFileExtension (toLower id sampleURL)
          ++ ".pdf".toList
        ∧ ∀ c ∈ stem, isLowerAlnum c = true ∨ c = '_')
    ∧ (∀ c ∈ urlToFilename id sampleURL, isLowerAlnum c = true ∨ c = '_' ∨ c = '.')
    ∧ getFileExtension (toLower id sampleURL) = ".pdf".toList :=
  ⟨toLowerRune_id_idem, (urlToFilename_shape id sampleURL).2.1 toLowerRune_id_idem, by decide,
    ((urlToFilename_shape id sampleURL).2.2.2 (by decide)).1,
    ((urlToFilename_shape id sampleURL).2.2.2 (by decide)).2, by decide⟩

/-- On a URL of ASCII characters the Unicode case tables play no part. -/
theorem urlToFilename_ascii (ul : Char → Char) (u : Str) (h : ∀ c ∈ u, c.toNat < 128) :
    urlToFilename ul u = urlToFilename id u := by
  have e : toLower ul u = toLower id u := by
    unfold toLower
    apply List.map_congr_left
    intro c hc
    unfold toLowerRune
    rw [if_pos (h c hc), if_pos (h c hc)]
  unfold urlToFilename
  rw [e]

/-- C5: the code at the two inputs for which the claim names the result.  The
last segment `my_pdf_file.pdf` gives `my_file.pdf.pdf`, not
`my_pdf_file.pdf.pdf`: the text `_pdf` is removed wherever it occurs, not only
at the end.  The last segment `a-b`, which has no extension, gives `ab.pdf`:
with the empty extension the text removed is `_`, so every underscore of the
name is lost. -/
theorem urlToFilename_removes_every_occurrence (ul : Char → Char) :
    urlToFilename ul "https://x.test/my_pdf_file.pdf".toList = "my_file.pdf.pdf".toList
    ∧ urlToFilename ul "https://x.test/a-b".toList = "ab.pdf".toList
    ∧ removeSubstring "my_pdf_file_pdf".toList "_pdf".toList = "my_file".toList
    ∧ removeSubstring "a_b".toList "_".toList = "ab".toList := by
  refine ⟨?_, ?_, by decide, by decide⟩
  · rw [urlToFilename_ascii ul _ (by decide)]
    decide
  · rw [urlToFilename_ascii ul _ (by decide)]
    decide

/-! ### De-duplication -/

theorem firstIndex_append_of_mem (a : Str) (l l2 : List Str) (h : a ∈ l) :
    firstIndex a (l ++ l2) = firstIndex a l := by
  induction l with
  | nil => simp at h
  | cons x xs ih =>
    by_cases hx : x = a
    · simp [firstIndex, hx]
    · have : a ∈ xs := by
        rcases List.mem_cons.mp h with h | h
        · exact absurd h.symm hx
        · exact h
      simp [firstIndex, hx, ih this]

theorem firstIndex_append_of_not_mem (a : Str) (l l2 : List Str) (h : a ∉ l) :
    firstIndex a (l ++ l2) = l.length + firstIndex a l2 := by
  induction l with
  | nil => simp
  | cons x xs ih =>
    have hx : ¬ x = a := fun e => h (e ▸ List.mem_cons_self _ _)
    have hxs : a ∉ xs := fun e => h (List.mem_cons_of_mem _ e)
    simp [firstIndex, hx, ih hxs]
    omega

theorem firstIndex_lt_length (a : Str) (l : List Str) (h : a ∈ l) :
    firstIndex a l < l.length := by
  induction l with
  | nil => simp at h
  | cons x xs ih =>
    by_cases hx : x = a
    · simp [firstIndex, hx]
    · have : a ∈ xs := by
        rcases List.mem_cons.mp h with h | h
        · exact absurd h.symm hx
        · exact h
      simp [firstIndex, hx, ih this]

theorem mapTracks_init : MapTracks (fun _ => false, []) := by
  intro k
  simp

theorem dedupStep_of_mem (st : BoolMap × List Str) (x : Str) (hinv : MapTracks st)
    (hx : x ∈ st.2) : dedupStep st x = st := by
  unfold dedupStep
  have : st.1 x = true := (hinv x).mpr hx
  simp [this]

theorem dedupStep_of_not_mem (st : BoolMap × List Str) (x : Str) (hinv : MapTracks st)
    (hx : x ∉ st.2) : dedupStep st x = (st.1.setTrue x, st.2 ++ [x]) := by
  unfold dedupStep
  have : st.1 x = false := by
    cases h : st.1 x
    · rfl
    · exact absurd ((hinv x).mp h) hx
  simp [this]

theorem mapTracks_setTrue (st : BoolMap × List Str) (x : Str) (hinv : MapTracks st) :
    MapTracks (st.1.setTrue x, st.2 ++ [x]) := by
  intro k
  unfold BoolMap.setTrue
  by_cases hk : k = x
  · simp [hk]
  · simp [hk, hinv k]

/-- The loop of `removeDuplicatesFromSlice` and `extractPDFUrls`, started with
the slice `st.2` already built: the result has no duplicates, holds the strings
already built and those of `xs`, and lists them in the order in which they
first occur in `st.2 ++ xs`. -/
theorem dedup_fold_spec (xs : List Str) (st : BoolMap × List Str) (hinv : MapTracks st)
    (hnd : st.2.Nodup) :
    (xs.foldl dedupStep st).2.Nodup
    ∧ (∀ m, m ∈ (xs.foldl dedupStep st).2 ↔ m ∈ st.2 ∨ m ∈ xs)
    ∧ (∀ a b, a ∈ (xs.foldl dedupStep st).2 → b ∈ (xs.foldl dedupStep st).2 →
        (firstIndex a (xs.foldl dedupStep st).2 < firstIndex b (xs.foldl dedupStep st).2
          ↔ firstIndex a (st.2 ++ xs) < firstIndex b (st.2 ++ xs))) := by
  induction xs generalizing st with
  | nil => simp [hnd]
  | cons x xs ih =>
    rw [List.foldl_cons]
    by_cases hx : x ∈ st.2
    · rw [dedupStep_of_mem st x hinv hx]
      obtain ⟨h1, h2, h3⟩ := ih st hinv hnd
      refine ⟨h1, ?_, ?_⟩
      · intro m
        rw [h2 m, List.mem_cons]
        constructor
        · rintro (h | h)
          · exact Or.inl h
          · exact Or.inr (Or.inr h)
        · rintro (h | h | h)
          · exact Or.inl h
          · exact Or.inl (h ▸ hx)
          · exact Or.inr h
      · intro a b ha hb
        rw [h3 a b ha hb]
        have key : ∀ c : Str, (c ∈ st.2 ∧ firstIndex c (st.2 ++ xs) = firstIndex c st.2
              ∧ firstIndex c (st.2 ++ x :: xs) = firstIndex c st.2 ∧ firstIndex c st.2 < st.2.length)
            ∨ (c ∉ st.2 ∧ firstIndex c (st.2 ++ xs) = st.2.length + firstIndex c xs
              ∧ firstIndex c (st.2 ++ x :: xs) = st.2.length + (firstIndex c xs + 1)) := by
          intro c
          by_cases hc : c ∈ st.2
          · exact Or.inl ⟨hc, firstIndex_append_of_mem c _ _ hc,
              firstIndex_append_of_mem c _ _ hc, firstIndex_lt_length c _ hc⟩
          · refine Or.inr ⟨hc, firstIndex_append_of_not_mem c _ _ hc, ?_⟩
            have hxc : ¬ x = c := fun e => hc (e ▸ hx)
            rw [firstIndex_append_of_not_mem c _ _ hc]
            simp [firstIndex, hxc]
        rcases key a with ⟨_, a1, a2, a3⟩ | ⟨_, a1, a2⟩ <;>
          rcases key b with ⟨_, b1, b2, b3⟩ | ⟨_, b1, b2⟩ <;>
          rw [a1, a2, b1, b2] <;> omega
    · rw [dedupStep_of_not_mem st x hinv hx]
      have hnd2 : (st.2 ++ [x]).Nodup := by
        rw [List.nodup_append]
        refine ⟨hnd, List.nodup_singleton x, ?_⟩
        intro a ha hb
        rw [List.mem_singleton] at hb
        exact hx (hb ▸ ha)
      obtain ⟨h1, h2, h3⟩ := ih (st.1.setTrue x, st.2 ++ [x]) (mapTracks_setTrue st x hinv) hnd2
      refine ⟨h1, ?_, ?_⟩
      · intro m
        rw [h2 m]
        simp only [List.mem_append, List.mem_singleton, List.mem_cons]
        tauto
      · intro a b ha hb
        have h := h3 a b ha hb
        simp only [List.append_assoc, List.singleton_append] at h
        exact h

/-- The slice returned by `extractPDFUrls` is the result of the loop on the matches. -/
theorem extractPDFUrls_eq (html : Str) :
    extractPDFUrls html = ((findAllString html).foldl dedupStep (fun _ => false, [])).2 := by
  unfold extractPDFUrls
  simp only
  split_ifs with h
  · rw [List.isEmpty_iff] at h
    rw [h]
    rfl
  · rfl

/-- C6: for every input text `extractPDFUrls` returns the matches of the
pattern with duplicates removed: the result has no duplicates, it contains
exactly the matched strings (so two matches that differ only in the query
string both appear), and its entries stand in the order of their first
occurrence among the matches.  For the text with `https://x.test/a.pdf` and
`https://x.test/a.pdf?v=2` in `href` attributes, each twice, the result is
exactly these two strings. -/
theorem extractPDFUrls_dedup (html : Str) :
    (extractPDFUrls html).Nodup
    ∧ (∀ m, m ∈ extractPDFUrls html ↔ m ∈ findAllString html)
    ∧ (∀ a b, a ∈ extractPDFUrls html → b ∈ extractPDFUrls html →
        (firstIndex a (extractPDFUrls html) < firstIndex b (extractPDFUrls html)
          ↔ firstIndex a (findAllString html) < firstIndex b (findAllString html)))
    ∧ findAllString ("<a href=\"https://x.test/a.pdf\"> <a href=\"https://x.test/a.pdf?v=2\"> "
          ++ "<a href=\"https://x.test/a.pdf\"> <a href=\"https://x.test/a.pdf?v=2\">").toList
        = ["https://x.test/a.pdf".toList, "https://x.test/a.pdf?v=2".toList,
            "https://x.test/a.pdf".toList, "https://x.test/a.pdf?v=2".toList]
    ∧ extractPDFUrls ("<a href=\"https://x.test/a.pdf\"> <a href=\"https://x.test/a.pdf?v=2\"> "
          ++ "<a href=\"https://x.test/a.pdf\"> <a href=\"https://x.test/a.pdf?v=2\">").toList
        = ["https://x.test/a.pdf".toList, "https://x.test/a.pdf?v=2".toList] := by
  obtain ⟨h1, h2, h3⟩ := dedup_fold_spec (findAllString html) (fun _ => false, [])
    mapTracks_init List.nodup_nil
  rw [extractPDFUrls_eq]
  refine ⟨h1, ?_, ?_, by decide, by decide⟩
  · intro m
    rw [h2 m]
    simp
  · intro a b ha hb
    have h := h3 a b ha hb
    simp only [List.nil_append] at h
    exact h

/-! ### URL resolution -/

/-- C7: the resolution done by the driver.  If the raw URL parses and its host
(the value `Hostname()` that `getDomainFromURL` returns) is not empty, the
resolved URL is the raw URL; otherwise it is the base domain followed by the raw
URL.  Against `https://base.test`, `/docs/sheet.pdf` resolves to
`https://base.test/docs/sheet.pdf` and `https://other.test/x.pdf` to itself. -/
theorem resolveURL_spec (base raw : Str) :
    ((∃ u, urlParse raw = some u ∧ u.Hostname ≠ []) → resolveURL base raw = raw)
    ∧ ((¬ ∃ u, urlParse raw = some u ∧ u.Hostname ≠ []) → resolveURL base raw = base ++ raw)
    ∧ resolveURL "https://base.test".toList "/docs/sheet.pdf".toList
        = "https://base.test/docs/sheet.pdf".toList
    ∧ resolveURL "https://base.test".toList "https://other.test/x.pdf".toList
        = "https://other.test/x.pdf".toList := by
  refine ⟨?_, ?_, by decide, by decide⟩
  · rintro ⟨u, hu, hh⟩
    unfold resolveURL getDomainFromURL
    simp [hu, hh]
  · intro hno
    unfold resolveURL getDomainFromURL
    cases hu : urlParse raw with
    | none => simp
    | some u =>
      have : u.Hostname = [] := by
        by_contra hne
        exact hno ⟨u, hu, hne⟩
      simp [this]

/-- One URL with a host and one without, resolved against the base domain of `main`. -/
theorem resolveURL_spec_witness :
    (∃ u, urlParse "https://other.test/x.pdf".toList = some u ∧ u.Hostname ≠ [])
    ∧ resolveURL remoteDomain "https://other.test/x.pdf".toList = "https://other.test/x.pdf".toList
    ∧ (¬ ∃ u, urlParse "/docs/sheet.pdf".toList = some u ∧ u.Hostname ≠ [])
    ∧ resolveURL remoteDomain "/docs/sheet.pdf".toList
        = "https://webcdnprd.cascorp.com/docs/sheet.pdf".toList :=
  have h1 : ∃ u, urlParse "https://other.test/x.pdf".toList = some u ∧ u.Hostname ≠ [] :=
    ⟨{ Scheme := "https".toList, Opaque := [], Host := "other.test".toList }, by decide, by decide⟩
  have h2 : ¬ ∃ u, urlParse "/docs/sheet.pdf".toList = some u ∧ u.Hostname ≠ [] := by
    rintro ⟨u, hu, hh⟩
    have e : urlParse "/docs/sheet.pdf".toList = some { Scheme := [], Opaque := [], Host := [] } := by
      decide
    rw [e] at hu
    cases hu
    exact hh (by decide)
  ⟨h1, (resolveURL_spec remoteDomain "https://other.test/x.pdf".toList).1 h1, h2,
    (resolveURL_spec remoteDomain "/docs/sheet.pdf".toList).2.1 h2⟩

/-! ### The page fetch -/

theorem fetchAll_panics (w : World) (seeds : List Str) (acc : List Str) (seed : Str)
    (hmem : seed ∈ seeds) (hget : w.pageGet seed = .fail none) :
    fetchAll w seeds acc = .panic := by
  induction seeds generalizing acc with
  | nil => simp at hmem
  | cons x xs ih =>
    unfold fetchAll
    cases hx : getDataFromURL w x with
    | panic => rfl
    | done data =>
      rcases List.mem_cons.mp hmem with h | h
      · subst h
        simp [getDataFromURL, hget] at hx
      · exact ih _ h

/-- C8: the code on a seed page whose GET ends in a transport error, so that
`http.Get` returns the nil response.  `getDataFromURL` does not return to the
driver: after logging the error it reads `response.Body` of the nil response,
and the run ends in a panic.  The driver ends with it, whatever the other
seeds, and no download is attempted. -/
theorem getDataFromURL_transport_error_panics (ul : Char → Char) (w : World) (fs : FS)
    (seeds : List Str) (seed : Str) (hmem : seed ∈ seeds) (hget : w.pageGet seed = .fail none) :
    getDataFromURL w seed = .panic ∧ mainWith ul w seeds fs = .panic := by
  constructor
  · simp [getDataFromURL, hget]
  · unfold mainWith
    simp [fetchAll_panics w seeds [] seed hmem hget]

/-- The seed page of `main` without network. -/
theorem getDataFromURL_transport_error_panics_witness :
    "https://www.cascorp.com/us/en/msds".toList ∈ remoteAPIURL
    ∧ offlineWorld.pageGet "https://www.cascorp.com/us/en/msds".toList = .fail none
    ∧ getDataFromURL offlineWorld "https://www.cascorp.com/us/en/msds".toList = .panic
    ∧ mainWith id offlineWorld remoteAPIURL [] = .panic :=
  ⟨by decide, rfl,
    getDataFromURL_transport_error_panics id offlineWorld [] remoteAPIURL
      "https://www.cascorp.com/us/en/msds".toList (by decide) rfl⟩

/-! ### The driver -/

theorem foldl_appendToSlice (l acc : List Str) : l.foldl appendToSlice acc = acc ++ l := by
  induction l generalizing acc with
  | nil => simp
  | cons x xs ih => simp [List.foldl_cons, appendToSlice, ih]

theorem removeDuplicatesFromSlice_nodup (l : List Str) : (removeDuplicatesFromSlice l).Nodup :=
  (dedup_fold_spec l (fun _ => false, []) mapTracks_init List.nodup_nil).1

/-- C10, counterexample: a page with the two links `https:///x.pdf` and
`https://webcdnprd.cascorp.comhttps:///x.pdf`.  They are distinct matches, so
both survive the removal of duplicates; the first has no host and is prefixed
with the base domain, the second has a host and is kept; the driver calls
`downloadPDF` twice on the same string. -/
theorem downloadTargets_repeats :
    downloadTargets
        "<a href=\"https:///x.pdf\"> <a href=\"https://webcdnprd.cascorp.comhttps:///x.pdf\">".toList
      = ["https://webcdnprd.cascorp.comhttps:///x.pdf".toList,
          "https://webcdnprd.cascorp.comhttps:///x.pdf".toList]
    ∧ ¬ (downloadTargets
        "<a href=\"https:///x.pdf\"> <a href=\"https://webcdnprd.cascorp.comhttps:///x.pdf\">".toList).Nodup := by
  decide

/-- C10, amended: within one run the removal of duplicates applies to the
extracted URLs, before they are resolved.  The driver calls `downloadPDF` on
the valid ones among the resolved forms of the extracted URLs with duplicates
removed, a sequence that contains no two equal strings and holds exactly the
matches of the page text; and two distinct URLs of that sequence resolve to the
same string only when one of them has a host and the other has none. -/
theorem downloadTargets_dedup_before_resolve (text : Str) :
    downloadTargets text
      = ((removeDuplicatesFromSlice (extractPDFUrls text)).map (resolveURL remoteDomain)).filter
          isUrlValid
    ∧ (removeDuplicatesFromSlice (extractPDFUrls text)).Nodup
    ∧ (∀ m, m ∈ removeDuplicatesFromSlice (extractPDFUrls text) ↔ m ∈ findAllString text)
    ∧ ∀ a ∈ removeDuplicatesFromSlice (extractPDFUrls text),
        ∀ b ∈ removeDuplicatesFromSlice (extractPDFUrls text), a ≠ b →
          resolveURL remoteDomain a = resolveURL remoteDomain b →
          (getDomainFromURL a = [] ↔ getDomainFromURL b ≠ []) := by
  refine ⟨?_, removeDuplicatesFromSlice_nodup _, ?_, ?_⟩
  · unfold downloadTargets
    simp only [foldl_appendToSlice, List.nil_append]
  · intro m
    unfold removeDuplicatesFromSlice
    rw [(dedup_fold_spec (extractPDFUrls text) (fun _ => false, []) mapTracks_init
      List.nodup_nil).2.1 m, extractPDFUrls_eq,
      (dedup_fold_spec (findAllString text) (fun _ => false, []) mapTracks_init
      List.nodup_nil).2.1 m]
    simp
  · intro a _ b _ hab hres
    unfold resolveURL at hres
    simp only [List.isEmpty_iff] at hres
    by_cases ha : getDomainFromURL a = [] <;> by_cases hb : getDomainFromURL b = []
    · rw [if_pos ha, if_pos hb] at hres
      exact absurd (List.append_cancel_left hres) hab
    · simp [ha, hb]
    · simp [ha, hb]
    · rw [if_neg ha, if_neg hb] at hres
      exact absurd hres hab

/-! ### File names of documents with a plain name -/

theorem isLowerAlnum_ne (c d : Char) (h : isLowerAlnum c = true) (hd : isLowerAlnum d = false) :
    c ≠ d := by
  intro e
  rw [e, hd] at h
  exact Bool.false_ne_true h

theorem toLower_append (ul : Char → Char) (a b : Str) :
    toLower ul (a ++ b) = toLower ul a ++ toLower ul b := by
  simp [toLower]

theorem filepathExt_dot_pdf (s : Str) : filepathExt (s ++ ".pdf".toList) = ".pdf".toList := by
  simp [filepathExt, extScan]

theorem pathBase_last_segment (q m : Str) (hne : m ≠ []) (hm : ∀ c ∈ m, c ≠ '/') :
    pathBase (q ++ '/' :: m) = m := by
  have hrev : ∀ c ∈ m.reverse, (c != '/') = true := by
    intro c hc
    simpa using hm c (List.mem_reverse.mp hc)
  have hstrip : stripTrailingSlashes (q ++ '/' :: m) = q ++ '/' :: m := by
    unfold stripTrailingSlashes
    cases hr : m.reverse with
    | nil => exact absurd (List.reverse_eq_nil_iff.mp hr) hne
    | cons x xs =>
      have hx : ¬ ((x == '/') = true) := by
        have := hrev x (by rw [hr]; exact List.mem_cons_self _ _)
        simpa using this
      have e : (q ++ '/' :: m).reverse = x :: (xs ++ '/' :: q.reverse) := by
        simp [List.reverse_append, hr]
      have hd : List.dropWhile (fun c => c == '/') (x :: (xs ++ '/' :: q.reverse))
          = x :: (xs ++ '/' :: q.reverse) := by
        simp [List.dropWhile, hx]
      rw [e, hd, ← e, List.reverse_reverse]
  have hafter : afterLastSlash (q ++ '/' :: m) = m := by
    unfold afterLastSlash
    have e : (q ++ '/' :: m).reverse = m.reverse ++ '/' :: q.reverse := by
      simp [List.reverse_append]
    rw [e, List.takeWhile_append_of_pos hrev]
    simp
  unfold pathBase
  simp only [hstrip, hafter]
  have h1 : (q ++ '/' :: m).isEmpty = false := by simp
  have h2 : m.isEmpty = false := by
    cases m with
    | nil => exact absurd rfl hne
    | cons _ _ => rfl
  simp [h1, h2]

theorem replaceRuns_append_of_neg (p : Char → Bool) (rep n t : Str)
    (h : ∀ c ∈ n, p c = false) (b : Bool) (hb : n ≠ [] ∨ b = false) :
    replaceRuns p rep b (n ++ t) = n ++ replaceRuns p rep false t := by
  induction n generalizing b with
  | nil =>
    rcases hb with hb | hb
    · exact absurd rfl hb
    · simp [hb]
  | cons x xs ih =>
    have hx : p x = false := h x (List.mem_cons_self _ _)
    rw [List.cons_append, replaceRuns, hx]
    simp only [Bool.false_eq_true, if_false]
    rw [ih (fun c hc => h c (List.mem_cons_of_mem _ hc)) false (Or.inr rfl)]
    rfl

theorem deleteAll_plain (old n t : Str) (x : Char) (hold : old = x :: t)
    (h : ∀ c ∈ n, c ≠ x) (rest : Str) :
    deleteAll old 0 (n ++ rest) = n ++ deleteAll old 0 rest := by
  induction n with
  | nil => simp
  | cons c cs ih =>
    have hc : c ≠ x := h c (List.mem_cons_self _ _)
    have hpre : old.isPrefixOf (c :: (cs ++ rest)) = false := by
      rw [hold]
      simp [List.isPrefixOf, Ne.symm hc]
    rw [List.cons_append, deleteAll, hpre]
    simp only [Bool.false_eq_true, if_false]
    rw [ih (fun d hd => h d (List.mem_cons_of_mem _ hd))]
    rfl

theorem lastDotPdf_spec (r : Str) (k : Nat) (h : lastDotPdf r = some k) :
    ∃ t, r = r.take k ++ ".pdf".toList ++ t ∧ (r.take k).length = k := by
  induction r generalizing k with
  | nil => simp [lastDotPdf] at h
  | cons c cs ih =>
    rw [lastDotPdf] at h
    cases hl : lastDotPdf cs with
    | some k2 =>
      rw [hl] at h
      simp only [Option.some.injEq] at h
      subst h
      obtain ⟨t, ht, hlen⟩ := ih k2 hl
      refine ⟨t, ?_, ?_⟩
      · rw [List.take_succ_cons, List.cons_append, List.cons_append, ← ht]
      · rw [List.take_succ_cons, List.length_cons, hlen]
    | none =>
      rw [hl] at h
      simp only at h
      split_ifs at h with hp
      simp only [Option.some.injEq] at h
      subst h
      obtain ⟨t, ht⟩ := List.isPrefixOf_iff_prefix.mp hp
      exact ⟨t, by simpa using ht.symm, rfl⟩

theorem schemeLen_spec (s : Str) (n : Nat) (h : schemeLen s = some n) :
    ∃ sch rest, s = sch ++ rest ∧ (sch = "https://".toList ∨ sch = "http://".toList)
      ∧ sch.length = n := by
  unfold schemeLen at h
  split_ifs at h with h1 h2
  · obtain ⟨t, ht⟩ := List.isPrefixOf_iff_prefix.mp h1
    simp only [Option.some.injEq] at h
    exact ⟨_, t, ht.symm, Or.inl rfl, by rw [← h]; rfl⟩
  · obtain ⟨t, ht⟩ := List.isPrefixOf_iff_prefix.mp h2
    simp only [Option.some.injEq] at h
    exact ⟨_, t, ht.symm, Or.inr rfl, by rw [← h]; rfl⟩

/-- What the pattern matches at the start of a text: a scheme, a non-empty body
of URL characters, `.pdf`, and possibly a query of query characters. -/
theorem matchPdfUrl_spec (s : Str) (len : Nat) (h : matchPdfUrl s = some len) :
    ∃ sch body q,
      s.take len = sch ++ body ++ ".pdf".toList ++ q
      ∧ (sch = "https://".toList ∨ sch = "http://".toList)
      ∧ body ≠ []
      ∧ (∀ c ∈ body, isUrlChar c = true)
      ∧ (q = [] ∨ ∃ q2, q = '?' :: q2 ∧ ∀ c ∈ q2, isQueryChar c = true) := by
  unfold matchPdfUrl at h
  cases hs : schemeLen s with
  | none => simp [hs] at h
  | some n =>
    obtain ⟨sch, rest, hsr, hsch, hn⟩ := schemeLen_spec s n hs
    have hdrop : s.drop n = rest := by rw [hsr]; exact List.drop_left' hn
    simp only [hs, hdrop] at h
    cases htw : rest.takeWhile isUrlChar with
    | nil => simp [htw] at h
    | cons c0 run =>
      simp only [htw] at h
      cases hl : lastDotPdf run with
      | none => simp [hl] at h
      | some k =>
        simp only [hl] at h
        obtain ⟨t, ht, hk⟩ := lastDotPdf_spec run k hl
        have hbody : ∀ c ∈ c0 :: run.take k, isUrlChar c = true := by
          intro c hc
          apply List.mem_takeWhile_imp (l := rest)
          rw [htw]
          rcases List.mem_cons.mp hc with h1 | h1
          · rw [h1]; exact List.mem_cons_self _ _
          · exact List.mem_cons_of_mem _ ((List.take_prefix k run).subset h1)
        have hrest : rest = (c0 :: run.take k) ++ ".pdf".toList
            ++ (t ++ rest.dropWhile isUrlChar) := by
          conv_lhs => rw [← List.takeWhile_append_dropWhile isUrlChar rest, htw, ht]
          simp
        have hs2 : s = (sch ++ (c0 :: run.take k) ++ ".pdf".toList)
            ++ (t ++ rest.dropWhile isUrlChar) := by
          conv_lhs => rw [hsr, hrest]
          simp
        have he : (sch ++ (c0 :: run.take k) ++ ".pdf".toList).length = n + 1 + k + 4 := by
          simp only [List.length_append, List.length_cons, hn, hk]
          have : ".pdf".toList.length = 4 := rfl
          omega
        have hdrop2 : s.drop (n + 1 + k + 4) = t ++ rest.dropWhile isUrlChar := by
          conv_lhs => rw [hs2]
          exact List.drop_left' he
        simp only [hdrop2] at h
        split at h
        · rename_i q hq
          simp only [Option.some.injEq] at h
          refine ⟨sch, c0 :: run.take k, '?' :: q.takeWhile isQueryChar, ?_, hsch, by simp, hbody,
            Or.inr ⟨_, rfl, fun c hc => List.mem_takeWhile_imp hc⟩⟩
          have hs3 : s = (sch ++ (c0 :: run.take k) ++ ".pdf".toList
              ++ '?' :: q.takeWhile isQueryChar) ++ q.dropWhile isQueryChar := by
            conv_lhs => rw [hs2, hq, ← List.takeWhile_append_dropWhile isQueryChar q]
            simp
          conv_lhs => rw [hs3]
          apply List.take_left'
          rw [List.length_append, he, List.length_cons, ← h]
          omega
        · simp only [Option.some.injEq] at h
          refine ⟨sch, c0 :: run.take k, [], ?_, hsch, by simp, hbody, Or.inl rfl⟩
          rw [List.append_nil]
          conv_lhs => rw [hs2]
          apply List.take_left'
          rw [he, h]

theorem mem_findAllFrom (n : Nat) (s m : Str) (h : m ∈ findAllFrom n s) :
    ∃ s2 len, s2 <:+ s ∧ matchPdfUrl s2 = some len ∧ m = s2.take len := by
  induction s generalizing n with
  | nil => simp [findAllFrom] at h
  | cons c cs ih =>
    cases n with
    | succ n2 =>
      rw [findAllFrom] at h
      obtain ⟨s2, len, h1, h2, h3⟩ := ih n2 h
      exact ⟨s2, len, h1.trans (List.suffix_cons c cs), h2, h3⟩
    | zero =>
      rw [findAllFrom] at h
      cases hm : matchPdfUrl (c :: cs) with
      | none =>
        simp only [hm] at h
        obtain ⟨s2, len, h1, h2, h3⟩ := ih 0 h
        exact ⟨s2, len, h1.trans (List.suffix_cons c cs), h2, h3⟩
      | some len =>
        simp only [hm] at h
        rcases List.mem_cons.mp h with h0 | h0
        · exact ⟨c :: cs, len, List.suffix_refl _, hm, h0⟩
        · obtain ⟨s2, len2, h1, h2, h3⟩ := ih (len - 1) h0
          exact ⟨s2, len2, h1.trans (List.suffix_cons c cs), h2, h3⟩

/-- Every match found in a text is a contiguous part of the text and has the
shape of the pattern. -/
theorem findAllString_shape (text m : Str) (h : m ∈ findAllString text) :
    m <:+: text
    ∧ ∃ sch body q,
        m = sch ++ body ++ ".pdf".toList ++ q
        ∧ (sch = "https://".toList ∨ sch = "http://".toList)
        ∧ body ≠ []
        ∧ (∀ c ∈ body, isUrlChar c = true)
        ∧ (q = [] ∨ ∃ q2, q = '?' :: q2 ∧ ∀ c ∈ q2, isQueryChar c = true) := by
  obtain ⟨s2, len, h1, h2, h3⟩ := mem_findAllFrom 0 text m h
  refine ⟨?_, ?_⟩
  · rw [h3]
    exact (List.take_prefix len s2).isInfix.trans h1.isInfix
  · rw [h3]
    exact matchPdfUrl_spec s2 len h2

theorem mem_extractPDFUrls (text m : Str) : m ∈ extractPDFUrls text ↔ m ∈ findAllString text := by
  rw [extractPDFUrls_eq,
    (dedup_fold_spec (findAllString text) (fun _ => false, []) mapTracks_init List.nodup_nil).2.1 m]
  simp

/-- C13: a text in which the lowercase `.pdf` does not occur yields the empty
list: the absence of links is not an error, and the match is case-sensitive on
the extension.  The link to `https://x.test/MSDS Sheet.PDF` yields no URL. -/
theorem extractPDFUrls_without_pdf (html : Str) :
    (¬ ".pdf".toList <:+: html → extractPDFUrls html = [])
    ∧ extractPDFUrls "<a href=\"https://x.test/MSDS Sheet.PDF\">".toList = [] := by
  refine ⟨?_, by decide⟩
  intro hno
  rw [List.eq_nil_iff_forall_not_mem]
  intro m hm
  obtain ⟨hinf, sch, body, q, hshape, _⟩ :=
    findAllString_shape html m ((mem_extractPDFUrls html m).mp hm)
  apply hno
  refine List.IsInfix.trans ?_ hinf
  exact ⟨sch ++ body, q, hshape.symm⟩

/-- A page without any link. -/
theorem extractPDFUrls_without_pdf_witness :
    (¬ ".pdf".toList <:+: "<p>no documents today</p>".toList)
    ∧ extractPDFUrls "<p>no documents today</p>".toList = [] :=
  have h : ¬ ".pdf".toList <:+: "<p>no documents today</p>".toList := by
    intro hin
    have := hin.subset (List.mem_cons_self _ _)
    revert this
    decide
  ⟨h, (extractPDFUrls_without_pdf "<p>no documents today</p>".toList).1 h⟩

/-- C14, counterexample: the link `https://x.test/a.pdf?title=Data Sheet` is
returned with the space of its query, a whitespace character. -/
theorem extractPDFUrls_query_with_space :
    extractPDFUrls "<a href=\"https://x.test/a.pdf?title=Data Sheet\">".toList
      = ["https://x.test/a.pdf?title=Data Sheet".toList]
    ∧ ' ' ∈ "https://x.test/a.pdf?title=Data Sheet".toList
    ∧ isRegexSpace ' ' = true := by
  decide

/-- C14, amended: every string returned by `extractPDFUrls` is a contiguous
part of the input text of the form scheme, body, `.pdf`, query, where the
scheme is `https://` or `http://`, the body is not empty and has no whitespace,
quote or angle bracket, and the query is empty or is `?` followed by characters
that are neither quotes nor angle brackets.  So the string has no quote and no
angle bracket anywhere, and whitespace only in its query. -/
theorem extractPDFUrls_shape (text m : Str) (h : m ∈ extractPDFUrls text) :
    m <:+: text
    ∧ (∃ sch body q,
        m = sch ++ body ++ ".pdf".toList ++ q
        ∧ (sch = "https://".toList ∨ sch = "http://".toList)
        ∧ body ≠ []
        ∧ (∀ c ∈ body, isRegexSpace c = false ∧ isQuoteOrAngle c = false)
        ∧ (q = [] ∨ ∃ q2, q = '?' :: q2 ∧ ∀ c ∈ q2, isQuoteOrAngle c = false))
    ∧ ∀ c ∈ m, isQuoteOrAngle c = false := by
  obtain ⟨hinf, sch, body, q, hshape, hsch, hne, hbody, hq⟩ :=
    findAllString_shape text m ((mem_extractPDFUrls text m).mp h)
  have hbody2 : ∀ c ∈ body, isRegexSpace c = false ∧ isQuoteOrAngle c = false := by
    intro c hc
    have := hbody c hc
    simpa [isUrlChar] using this
  have hq2 : q = [] ∨ ∃ q2, q = '?' :: q2 ∧ ∀ c ∈ q2, isQuoteOrAngle c = false := by
    rcases hq with hq | ⟨q2, hq, hq3⟩
    · exact Or.inl hq
    · refine Or.inr ⟨q2, hq, ?_⟩
      intro c hc
      simpa [isQueryChar] using hq3 c hc
  refine ⟨hinf, ⟨sch, body, q, hshape, hsch, hne, hbody2, hq2⟩, ?_⟩
  intro c hc
  rw [hshape] at hc
  simp only [List.mem_append] at hc
  rcases hc with ((hc | hc) | hc) | hc
  · rcases hsch with hsch | hsch <;> rw [hsch] at hc <;> revert hc <;> revert c <;> decide
  · exact (hbody2 c hc).2
  · revert hc
    revert c
    decide
  · rcases hq2 with hq2 | ⟨q2, hq2, hq3⟩
    · rw [hq2] at hc
      simp at hc
    · rw [hq2] at hc
      rcases List.mem_cons.mp hc with h1 | h1
      · rw [h1]
        decide
      · exact hq3 c h1

/-- The link of the counterexample: a part of the page, free of quotes and angle brackets. -/
theorem extractPDFUrls_shape_witness :
    "https://x.test/a.pdf?title=Data Sheet".toList
      ∈ extractPDFUrls "<a href=\"https://x.test/a.pdf?title=Data Sheet\">".toList
    ∧ "https://x.test/a.pdf?title=Data Sheet".toList
        <:+: "<a href=\"https://x.test/a.pdf?title=Data Sheet\">".toList
    ∧ ∀ c ∈ "https://x.test/a.pdf?title=Data Sheet".toList, isQuoteOrAngle c = false :=
  have h : "https://x.test/a.pdf?title=Data Sheet".toList
      ∈ extractPDFUrls "<a href=\"https://x.test/a.pdf?title=Data Sheet\">".toList := by decide
  ⟨h, (extractPDFUrls_shape _ _ h).1, (extractPDFUrls_shape _ _ h).2.2⟩

/-! ### `removeDuplicatesFromSlice` -/

theorem dedup_fold_sublist (xs : List Str) (st : BoolMap × List Str) :
    ∃ l, l.Sublist xs ∧ (xs.foldl dedupStep st).2 = st.2 ++ l := by
  induction xs generalizing st with
  | nil => exact ⟨[], List.Sublist.refl _, by simp⟩
  | cons x xs ih =>
    rw [List.foldl_cons]
    have hstep : dedupStep st x
        = if (!st.1 x) = true then (st.1.setTrue x, st.2 ++ [x]) else st := rfl
    rw [hstep]
    split_ifs with hx
    · obtain ⟨l, hl, he⟩ := ih (st.1.setTrue x, st.2 ++ [x])
      refine ⟨x :: l, hl.cons₂ x, ?_⟩
      rw [he]
      simp
    · obtain ⟨l, hl, he⟩ := ih st
      exact ⟨l, hl.cons x, he⟩

theorem dedup_fold_of_nodup (xs : List Str) (st : BoolMap × List Str) (hinv : MapTracks st)
    (hnd : xs.Nodup) (hnew : ∀ x ∈ xs, x ∉ st.2) :
    (xs.foldl dedupStep st).2 = st.2 ++ xs := by
  induction xs generalizing st with
  | nil => simp
  | cons x xs ih =>
    rw [List.foldl_cons, dedupStep_of_not_mem st x hinv (hnew x (List.mem_cons_self _ _))]
    rw [List.nodup_cons] at hnd
    rw [ih _ (mapTracks_setTrue st x hinv) hnd.2]
    · simp
    · intro y hy hmem
      simp only [List.mem_append, List.mem_singleton] at hmem
      rcases hmem with hmem | hmem
      · exact hnew y (List.mem_cons_of_mem _ hy) hmem
      · exact hnd.1 (hmem ▸ hy)

/-- C15: for every slice `xs`, `removeDuplicatesFromSlice xs` has no
duplicates, contains exactly the strings that occur in `xs`, is a subsequence
of `xs`, and lists the strings in the order of their first occurrence in `xs`.
Hence it is idempotent, and it returns `xs` itself when `xs` has no
duplicates. -/
theorem removeDuplicatesFromSlice_spec (xs : List Str) :
    (removeDuplicatesFromSlice xs).Nodup
    ∧ (∀ m, m ∈ removeDuplicatesFromSlice xs ↔ m ∈ xs)
    ∧ (removeDuplicatesFromSlice xs).Sublist xs
    ∧ (∀ a b, a ∈ removeDuplicatesFromSlice xs → b ∈ removeDuplicatesFromSlice xs →
        (firstIndex a (removeDuplicatesFromSlice xs) < firstIndex b (removeDuplicatesFromSlice xs)
          ↔ firstIndex a xs < firstIndex b xs))
    ∧ removeDuplicatesFromSlice (removeDuplicatesFromSlice xs) = removeDuplicatesFromSlice xs
    ∧ (xs.Nodup → removeDuplicatesFromSlice xs = xs) := by
  obtain ⟨h1, h2, h3⟩ := dedup_fold_spec xs (fun _ => false, []) mapTracks_init List.nodup_nil
  have hid : ∀ ys : List Str, ys.Nodup → removeDuplicatesFromSlice ys = ys := by
    intro ys hys
    unfold removeDuplicatesFromSlice
    rw [dedup_fold_of_nodup ys _ mapTracks_init hys (by simp)]
    simp
  refine ⟨h1, ?_, ?_, ?_, hid _ h1, hid xs⟩
  · intro m
    unfold removeDuplicatesFromSlice
    rw [h2 m]
    simp
  · obtain ⟨l, hl, he⟩ := dedup_fold_sublist xs (fun _ => false, [])
    unfold removeDuplicatesFromSlice
    rw [he]
    simpa using hl
  · intro a b ha hb
    have h := h3 a b ha hb
    simp only [List.nil_append] at h
    exact h

/-- A slice with repetitions, and a slice without. -/
theorem removeDuplicatesFromSlice_spec_witness :
    removeDuplicatesFromSlice ["b".toList, "a".toList, "b".toList, "c".toList, "a".toList]
      = ["b".toList, "a".toList, "c".toList]
    ∧ ["b".toList, "a".toList, "c".toList].Nodup
    ∧ removeDuplicatesFromSlice ["b".toList, "a".toList, "c".toList]
      = ["b".toList, "a".toList, "c".toList] :=
  have h : ["b".toList, "a".toList, "c".toList].Nodup := by decide
  ⟨by decide, h, (removeDuplicatesFromSlice_spec ["b".toList, "a".toList, "c".toList]).2.2.2.2.2 h⟩

/-! ### Successful downloads -/

/-- C12: `downloadPDF` returns true exactly when no regular file is at the
destination, the GET succeeds, the status is 200, the Content-Type contains
`application/pdf`, the body is read without error and is not empty, the file
is created and the write succeeds.  When it returns true, the file at the
destination holds exactly the bytes of the body and no other path of the file
system has changed.  The destination is
`filepath.Join(outputDir, urlToFilename(url))`: the further lowercasing of the
name in `downloadPDF` changes nothing, as lowercasing is idempotent. -/
theorem downloadPDF_true_iff (ul : Char → Char) (w : World) (fs : FS) (url dir : Str) :
    ((downloadPDF ul w fs url dir).ok = true ↔
      fileExists fs (filepathJoin dir (toLower ul (urlToFilename ul url))) = false
      ∧ ∃ resp, w.pdfGet url = .ok resp
          ∧ resp.StatusCode = 200
          ∧ contains resp.ContentType "application/pdf".toList = true
          ∧ resp.readErr = false
          ∧ resp.body ≠ []
          ∧ osCreate w fs (filepathJoin dir (toLower ul (urlToFilename ul url))) ≠ none
          ∧ w.writeFailsAt (filepathJoin dir (toLower ul (urlToFilename ul url))) = none)
    ∧ ((downloadPDF ul w fs url dir).ok = true →
        ∀ resp, w.pdfGet url = .ok resp →
          osStat (downloadPDF ul w fs url dir).fs
              (filepathJoin dir (toLower ul (urlToFilename ul url))) = some (.file resp.body)
          ∧ ∀ k, k ≠ filepathClean (filepathJoin dir (toLower ul (urlToFilename ul url))) →
              (downloadPDF ul w fs url dir).fs.get k = fs.get k)
    ∧ ((∀ c, toLowerRune ul (toLowerRune ul c) = toLowerRune ul c) →
        filepathJoin dir (toLower ul (urlToFilename ul url))
          = filepathJoin dir (urlToFilename ul url)) := by
  refine ⟨?_, ?_, fun hul => by rw [toLower_urlToFilename ul hul]⟩
  · unfold downloadPDF
    simp only
    by_cases h1 : fileExists fs (filepathJoin dir (toLower ul (urlToFilename ul url))) = true
    · simp [h1]
    · cases hg : w.pdfGet url with
      | fail r => simp [h1]
      | ok resp =>
        simp only [h1, GetResult.ok.injEq, exists_eq_left']
        generalize contains resp.ContentType "application/pdf".toList = ct
        by_cases h2 : (resp.StatusCode != 200) = true
        · have : resp.StatusCode ≠ 200 := by simpa using h2
          simp [h2, this]
        · have h2' : resp.StatusCode = 200 := by simpa using h2
          cases ct with
          | false => simp [h2]
          | true =>
            by_cases h4 : resp.readErr = true
            · simp [h2, h4]
            · have h4' : resp.readErr = false := by simpa using h4
              by_cases h5 : resp.body = []
              · simp [h2, h4, h5]
              · have h5' : ¬ (resp.body.length == 0) = true := by simpa using h5
                cases hc : osCreate w fs
                    (filepathJoin dir (toLower ul (urlToFilename ul url))) with
                | none => simp [h2, h4, h5', hc]
                | some fs1 =>
                  cases hw : w.writeFailsAt
                      (filepathJoin dir (toLower ul (urlToFilename ul url))) with
                  | some n => simp [h2, h4, h5', hc, writeTo, hw]
                  | none => simp [h2, h4', h5, h5', hc, writeTo, hw, h2']
  · intro hok resp hg
    unfold downloadPDF at hok ⊢
    simp only at hok ⊢
    split_ifs at hok ⊢ with h1
    simp only [hg] at hok ⊢
    split_ifs at hok ⊢ with h2 h3 h4 h5
    cases hc : osCreate w fs (filepathJoin dir (toLower ul (urlToFilename ul url))) with
    | none => simp [hc] at hok
    | some fs1 =>
      simp only [hc] at hok ⊢
      have hfs1 := osCreate_eq_some w fs fs1 _ hc
      cases hw : w.writeFailsAt (filepathJoin dir (toLower ul (urlToFilename ul url))) with
      | some n => simp [writeTo, hw] at hok
      | none =>
        simp only [writeTo, hw, hfs1, fs_put_put]
        refine ⟨?_, ?_⟩
        · unfold osStat
          exact fs_get_put_same _ _ _
        · intro k hk
          exact fs_get_put_other _ _ _ _ hk

/-- The download of a four-byte document into the empty output directory. -/
theorem downloadPDF_true_iff_witness :
    (downloadPDF id (serverWorld pdfResponse none) outputDirFS sampleURL sampleDir).ok = true
    ∧ (serverWorld pdfResponse none).pdfGet sampleURL = .ok pdfResponse
    ∧ osStat (downloadPDF id (serverWorld pdfResponse none) outputDirFS sampleURL sampleDir).fs
        (filepathJoin sampleDir (toLower id (urlToFilename id sampleURL)))
        = some (.file pdfResponse.body)
    ∧ (∀ k, k ≠ filepathClean (filepathJoin sampleDir (toLower id (urlToFilename id sampleURL))) →
        (downloadPDF id (serverWorld pdfResponse none) outputDirFS sampleURL sampleDir).fs.get k
          = outputDirFS.get k)
    ∧ filepathJoin sampleDir (toLower id (urlToFilename id sampleURL))
        = "PDFs/msds_sheet.pdf.pdf".toList :=
  have hok : (downloadPDF id (serverWorld pdfResponse none) outputDirFS sampleURL sampleDir).ok
      = true := by
    decide
  ⟨hok, rfl,
    ((downloadPDF_true_iff id (serverWorld pdfResponse none) outputDirFS sampleURL sampleDir).2.1
      hok pdfResponse rfl).1,
    ((downloadPDF_true_iff id (serverWorld pdfResponse none) outputDirFS sampleURL sampleDir).2.1
      hok pdfResponse rfl).2,
    by decide⟩

/-! ### File names of documents with a hyphenated name -/

theorem isLowerAlnum_of_range (c : Char)
    (h : (97 ≤ c.toNat ∧ c.toNat ≤ 122) ∨ (48 ≤ c.toNat ∧ c.toNat ≤ 57)) :
    isLowerAlnum c = true := by
  simp only [isLowerAlnum, Bool.or_eq_true, Bool.and_eq_true, decide_eq_true_eq, char_le_iff]
  have e1 : 'a'.toNat = 97 := rfl
  have e2 : 'z'.toNat = 122 := rfl
  have e3 : '0'.toNat = 48 := rfl
  have e4 : '9'.toNat = 57 := rfl
  rw [e1, e2, e3, e4]
  exact h

theorem isAlnum_toLower (c : Char) (h : isAlnum c = true) :
    c.toNat < 128 ∧ isLowerAlnum c.toLower = true := by
  simp only [isAlnum, Bool.or_eq_true, Bool.and_eq_true, decide_eq_true_eq, char_le_iff] at h
  have e1 : 'a'.toNat = 97 := rfl
  have e2 : 'z'.toNat = 122 := rfl
  have e3 : '0'.toNat = 48 := rfl
  have e4 : '9'.toNat = 57 := rfl
  have e5 : 'A'.toNat = 65 := rfl
  have e6 : 'Z'.toNat = 90 := rfl
  rw [e1, e2, e3, e4, e5, e6] at h
  refine ⟨by omega, ?_⟩
  apply isLowerAlnum_of_range
  unfold Char.toLower
  simp only
  split_ifs with hu
  · rw [toNat_ofNat_small _ (by omega)]
    omega
  · omega

theorem toLower_alnum (ul : Char → Char) (w : Str) (h : ∀ c ∈ w, isAlnum c = true) :
    toLower ul w = w.map Char.toLower := by
  unfold toLower
  apply List.map_congr_left
  intro c hc
  unfold toLowerRune
  rw [if_pos (isAlnum_toLower c (h c hc)).1]

theorem toLower_joinTail (ul : Char → Char) (ws : List Str)
    (h : ∀ w ∈ ws, ∀ c ∈ w, isAlnum c = true) :
    toLower ul (joinTail '-' ws) = joinTail '-' (ws.map (fun w => w.map Char.toLower)) := by
  induction ws with
  | nil => rfl
  | cons w ws ih =>
    have e : toLower ul ['-'] = ['-'] := by
      simp [toLower, toLowerRune_of_not_upper ul '-' (by decide) (by decide)]
    have : joinTail '-' (w :: ws) = ['-'] ++ (w ++ joinTail '-' ws) := rfl
    rw [this, toLower_append, toLower_append, e, toLower_alnum ul w (h w (List.mem_cons_self _ _)),
      ih (fun v hv => h v (List.mem_cons_of_mem _ hv))]
    rfl

theorem mem_joinTail (sep : Char) (ws : List Str) (c : Char) (h : c ∈ joinTail sep ws) :
    c = sep ∨ ∃ w ∈ ws, c ∈ w := by
  induction ws with
  | nil => simp [joinTail] at h
  | cons w ws ih =>
    simp only [joinTail, List.mem_cons, List.mem_append] at h
    rcases h with h | h | h
    · exact Or.inl h
    · exact Or.inr ⟨w, List.mem_cons_self _ _, h⟩
    · rcases ih h with h2 | ⟨v, hv, hc⟩
      · exact Or.inl h2
      · exact Or.inr ⟨v, List.mem_cons_of_mem _ hv, hc⟩

/-- Replacing the runs of a class in words joined by a separator of the class:
the separators become the replacement character. -/
theorem replaceRuns_joinTail (p : Char → Bool) (sep r : Char) (ws : List Str) (t : Str)
    (hsep : p sep = true) (hws : ∀ w ∈ ws, w ≠ [] ∧ ∀ c ∈ w, p c = false) :
    replaceRuns p [r] false (joinTail sep ws ++ t) = joinTail r ws ++ replaceRuns p [r] false t := by
  induction ws with
  | nil => rfl
  | cons w ws ih =>
    have hw := hws w (List.mem_cons_self _ _)
    have e : joinTail sep (w :: ws) ++ t = sep :: (w ++ (joinTail sep ws ++ t)) := by
      simp [joinTail]
    rw [e, replaceRuns, hsep]
    simp only [if_true, Bool.false_eq_true, if_false]
    rw [replaceRuns_append_of_neg p [r] w _ hw.2 true (Or.inl hw.1),
      ih (fun v hv => hws v (List.mem_cons_of_mem _ hv))]
    simp [joinTail]

theorem not_pdf_prefix (w rest : Str) (hne : w ≠ []) (hw : ∀ c ∈ w, c ≠ '_')
    (hpdf : ¬ "pdf".toList <+: w) : "pdf".toList.isPrefixOf (w ++ '_' :: rest) = false := by
  have hnot : ¬ "pdf".toList <+: (w ++ '_' :: rest) := by
    intro hp
    match w, hne, hw, hpdf, hp with
    | [a], _, _, _, hp =>
      obtain ⟨t, ht⟩ := hp
      simp at ht
    | [a, b], _, _, _, hp =>
      obtain ⟨t, ht⟩ := hp
      simp at ht
    | a :: b :: c :: w3, _, _, hpdf, hp =>
      obtain ⟨t, ht⟩ := hp
      apply hpdf
      simp only [String.toList, List.cons_append, List.cons.injEq, List.nil_append] at ht
      exact ⟨w3, by rw [← ht.1, ← ht.2.1, ← ht.2.2.1]; rfl⟩
  cases hb : "pdf".toList.isPrefixOf (w ++ '_' :: rest) with
  | false => rfl
  | true => exact absurd (List.isPrefixOf_iff_prefix.mp hb) hnot

/-- Deleting `_pdf` from words joined by `_` and followed by `_pdf`, when no
word begins with `pdf`: only the final `_pdf` goes. -/
theorem deleteAll_joinTail (ws : List Str)
    (hws : ∀ w ∈ ws, w ≠ [] ∧ (∀ c ∈ w, c ≠ '_') ∧ ¬ "pdf".toList <+: w) :
    deleteAll "_pdf".toList 0 (joinTail '_' ws ++ "_pdf".toList) = joinTail '_' ws := by
  induction ws with
  | nil => decide
  | cons w ws ih =>
    have hw := hws w (List.mem_cons_self _ _)
    obtain ⟨rest, hrest⟩ : ∃ rest, joinTail '_' ws ++ "_pdf".toList = '_' :: rest := by
      cases ws with
      | nil => exact ⟨_, rfl⟩
      | cons v vs => exact ⟨_, rfl⟩
    have e : joinTail '_' (w :: ws) ++ "_pdf".toList
        = '_' :: (w ++ (joinTail '_' ws ++ "_pdf".toList)) := by
      simp [joinTail]
    have hpre : "_pdf".toList.isPrefixOf ('_' :: (w ++ (joinTail '_' ws ++ "_pdf".toList)))
        = false := by
      rw [hrest]
      have := not_pdf_prefix w rest hw.1 hw.2.1 hw.2.2
      simpa [List.isPrefixOf] using this
    rw [e, deleteAll, hpre]
    simp only [Bool.false_eq_true, if_false]
    rw [deleteAll_plain "_pdf".toList w "pdf".toList '_' rfl hw.2.1,
      ih (fun v hv => hws v (List.mem_cons_of_mem _ hv))]
    rfl

theorem map_dash_joinTail (ws : List Str) (hws : ∀ w ∈ ws, ∀ c ∈ w, c ≠ '-') :
    (joinTail '-' ws).map (fun c => if c = '-' then '_' else c) = joinTail '_' ws := by
  induction ws with
  | nil => rfl
  | cons w ws ih =>
    have hw : w.map (fun c => if c = '-' then '_' else c) = w := by
      conv_rhs => rw [← List.map_id w]
      apply List.map_congr_left
      intro c hc
      simp [hws w (List.mem_cons_self _ _) c hc]
    simp only [joinTail, List.map_cons, List.map_append, if_true, hw,
      ih (fun v hv => hws v (List.mem_cons_of_mem _ hv))]

/-- The file name of a document whose name is a list of lower-case
alphanumeric words joined by hyphens, none but the first beginning with `pdf`. -/
theorem urlToFilename_lower_words (ul : Char → Char) (u lpre w0 : Str) (ws : List Str)
    (hlow : toLower ul u = lpre ++ '/' :: (w0 ++ joinTail '-' ws ++ ".pdf".toList))
    (h0 : w0 ≠ [] ∧ ∀ c ∈ w0, isLowerAlnum c = true)
    (hws : ∀ w ∈ ws, w ≠ [] ∧ (∀ c ∈ w, isLowerAlnum c = true) ∧ ¬ "pdf".toList <+: w) :
    urlToFilename ul u = w0 ++ joinTail '_' ws ++ ".pdf.pdf".toList := by
  have hext : getFileExtension (lpre ++ '/' :: (w0 ++ joinTail '-' ws ++ ".pdf".toList))
      = ".pdf".toList := by
    have : lpre ++ '/' :: (w0 ++ joinTail '-' ws ++ ".pdf".toList)
        = (lpre ++ '/' :: (w0 ++ joinTail '-' ws)) ++ ".pdf".toList := by simp
    rw [this]
    exact filepathExt_dot_pdf _
  have hbase : getFileNameOnly (lpre ++ '/' :: (w0 ++ joinTail '-' ws ++ ".pdf".toList))
      = w0 ++ joinTail '-' ws ++ ".pdf".toList := by
    apply pathBase_last_segment
    · simp
    · intro c hc
      simp only [List.mem_append] at hc
      rcases hc with (hc | hc) | hc
      · exact isLowerAlnum_ne c '/' (h0.2 c hc) (by decide)
      · rcases mem_joinTail _ _ _ hc with h | ⟨w, hw, hcw⟩
        · rw [h]
          decide
        · exact isLowerAlnum_ne c '/' ((hws w hw).2.1 c hcw) (by decide)
      · simp only [String.toList, List.mem_cons, List.mem_singleton, List.not_mem_nil,
          or_false] at hc
        rcases hc with h | h | h | h <;> subst h <;> decide
  have hnotus : ∀ c, isLowerAlnum c = true → c ≠ '_' :=
    fun c hc => isLowerAlnum_ne c '_' hc (by decide)
  have hstem : safeStem ul u = w0 ++ joinTail '_' ws := by
    unfold safeStem
    simp only [hlow, hext, hbase, List.foldl_cons, List.foldl_nil]
    have e0 : w0 ++ joinTail '-' ws ++ ".pdf".toList
        = w0 ++ (joinTail '-' ws ++ ".pdf".toList) := by simp
    rw [e0, replaceRuns_append_of_neg _ _ w0 _ (by simpa using h0.2) false (Or.inr rfl),
      replaceRuns_joinTail _ '-' '_' ws _ (by decide)
        (fun w hw => ⟨(hws w hw).1, by simpa using (hws w hw).2.1⟩)]
    have e1 : replaceRuns (fun c => !isLowerAlnum c) ['_'] false ".pdf".toList = "_pdf".toList := by
      decide
    rw [e1, replaceRuns_append_of_neg _ _ w0 _
        (by simpa using fun c hc => hnotus c (h0.2 c hc)) false (Or.inr rfl),
      replaceRuns_joinTail _ '_' '_' ws _ (by decide)
        (fun w hw => ⟨(hws w hw).1,
          by simpa using fun c hc => hnotus c ((hws w hw).2.1 c hc)⟩)]
    have e2 : replaceRuns (fun c => c == '_') ['_'] false "_pdf".toList = "_pdf".toList := by
      decide
    rw [e2]
    have e3 : trimPrefix (w0 ++ (joinTail '_' ws ++ "_pdf".toList)) ['_']
        = w0 ++ (joinTail '_' ws ++ "_pdf".toList) := by
      unfold trimPrefix
      cases hw0 : w0 with
      | nil => exact absurd hw0 h0.1
      | cons c cs =>
        have : c ≠ '_' := hnotus c (h0.2 c (by rw [hw0]; exact List.mem_cons_self _ _))
        simp [List.isPrefixOf, Ne.symm this]
    have e4 : '_' :: trimPrefix ".pdf".toList ['.'] = "_pdf".toList := by decide
    rw [e3, e4]
    unfold removeSubstring replaceAllWithEmpty
    have e5 : "_pdf".toList.isEmpty = false := by decide
    rw [e5]
    simp only [Bool.false_eq_true, if_false]
    rw [deleteAll_plain "_pdf".toList w0 "pdf".toList '_' (by decide)
        (fun c hc => hnotus c (h0.2 c hc)),
      deleteAll_joinTail ws (fun w hw => ⟨(hws w hw).1,
        fun c hc => hnotus c ((hws w hw).2.1 c hc), (hws w hw).2.2⟩)]
  rw [urlToFilename_eq, hstem, hlow, hext]
  simp

/-- C11: for a URL `prefix/name.pdf` whose name consists of non-empty words
over `[A-Za-z0-9]` joined by single hyphens, no word after the first beginning
with `pdf` in any letter case, `urlToFilename` returns the lowercased name with
every hyphen replaced by an underscore, followed by `.pdf.pdf`.  The URL
`https://x.test/msds-sheet.pdf` gives `msds_sheet.pdf.pdf`, and for every URL
the result ends with `.pdf`. -/
theorem urlToFilename_hyphenated (ul : Char → Char) (pre w0 : Str) (ws : List Str)
    (h0 : w0 ≠ [] ∧ ∀ c ∈ w0, isAlnum c = true)
    (hws : ∀ w ∈ ws, w ≠ [] ∧ (∀ c ∈ w, isAlnum c = true)
      ∧ ¬ "pdf".toList <+: w.map Char.toLower) :
    urlToFilename ul (pre ++ '/' :: (w0 ++ joinTail '-' ws) ++ ".pdf".toList)
      = (toLower ul (w0 ++ joinTail '-' ws)).map (fun c => if c = '-' then '_' else c)
          ++ ".pdf.pdf".toList
    ∧ urlToFilename ul "https://x.test/msds-sheet.pdf".toList = "msds_sheet.pdf.pdf".toList
    ∧ ∀ u, ".pdf".toList <:+ urlToFilename ul u := by
  refine ⟨?_, ?_, ?_⟩
  · have hname : toLower ul (w0 ++ joinTail '-' ws)
        = w0.map Char.toLower ++ joinTail '-' (ws.map (fun w => w.map Char.toLower)) := by
      rw [toLower_append, toLower_alnum ul w0 h0.2,
        toLower_joinTail ul ws (fun w hw => (hws w hw).2.1)]
    have hlow : toLower ul (pre ++ '/' :: (w0 ++ joinTail '-' ws) ++ ".pdf".toList)
        = toLower ul pre ++ '/' :: (w0.map Char.toLower
            ++ joinTail '-' (ws.map (fun w => w.map Char.toLower)) ++ ".pdf".toList) := by
      have e1 : toLower ul ['/'] = ['/'] := by
        simp [toLower, toLowerRune_of_not_upper ul '/' (by decide) (by decide)]
      have e2 : toLower ul ".pdf".toList = ".pdf".toList := by
        unfold toLower
        simp [toLowerRune_of_not_upper ul '.' (by decide) (by decide),
          toLowerRune_of_not_upper ul 'p' (by decide) (by decide),
          toLowerRune_of_not_upper ul 'd' (by decide) (by decide),
          toLowerRune_of_not_upper ul 'f' (by decide) (by decide)]
      have : pre ++ '/' :: (w0 ++ joinTail '-' ws) ++ ".pdf".toList
          = pre ++ (['/'] ++ ((w0 ++ joinTail '-' ws) ++ ".pdf".toList)) := by simp
      rw [this, toLower_append, toLower_append, toLower_append, e1, e2, hname]
      simp
    have hl0 : w0.map Char.toLower ≠ [] ∧ ∀ c ∈ w0.map Char.toLower, isLowerAlnum c = true := by
      refine ⟨by simpa using h0.1, ?_⟩
      intro c hc
      obtain ⟨c0, hc0, rfl⟩ := List.mem_map.mp hc
      exact (isAlnum_toLower c0 (h0.2 c0 hc0)).2
    have hlws : ∀ w ∈ ws.map (fun w => w.map Char.toLower),
        w ≠ [] ∧ (∀ c ∈ w, isLowerAlnum c = true) ∧ ¬ "pdf".toList <+: w := by
      intro w hw
      obtain ⟨v, hv, rfl⟩ := List.mem_map.mp hw
      refine ⟨by simpa using (hws v hv).1, ?_, (hws v hv).2.2⟩
      intro c hc
      obtain ⟨c0, hc0, rfl⟩ := List.mem_map.mp hc
      exact (isAlnum_toLower c0 ((hws v hv).2.1 c0 hc0)).2
    rw [urlToFilename_lower_words ul _ _ _ _ hlow hl0 hlws, hname, List.map_append,
      map_dash_joinTail _ (fun w hw c hc => isLowerAlnum_ne c '-' ((hlws w hw).2.1 c hc)
        (by decide))]
    have hw0 : (w0.map Char.toLower).map (fun c => if c = '-' then '_' else c)
        = w0.map Char.toLower := by
      conv_rhs => rw [← List.map_id (w0.map Char.toLower)]
      apply List.map_congr_left
      intro c hc
      simp [isLowerAlnum_ne c '-' (hl0.2 c hc) (by decide)]
    rw [hw0]
  · rw [urlToFilename_ascii ul _ (by decide)]
    decide
  · intro u
    rw [urlToFilename_eq]
    exact ⟨_, rfl⟩

/-- The document `MSDS-Sheet-v2.pdf`. -/
theorem urlToFilename_hyphenated_witness :
    ("MSDS".toList ≠ [] ∧ ∀ c ∈ "MSDS".toList, isAlnum c = true)
    ∧ (∀ w ∈ ["Sheet".toList, "v2".toList], w ≠ [] ∧ (∀ c ∈ w, isAlnum c = true)
        ∧ ¬ "pdf".toList <+: w.map Char.toLower)
    ∧ urlToFilename id ("https://x.test".toList
          ++ '/' :: ("MSDS".toList ++ joinTail '-' ["Sheet".toList, "v2".toList])
          ++ ".pdf".toList)
        = (toLower id ("MSDS".toList ++ joinTail '-' ["Sheet".toList, "v2".toList])).map
            (fun c => if c = '-' then '_' else c) ++ ".pdf.pdf".toList
    ∧ (toLower id ("MSDS".toList ++ joinTail '-' ["Sheet".toList, "v2".toList])).map
          (fun c => if c = '-' then '_' else c) ++ ".pdf.pdf".toList
        = "msds_sheet_v2.pdf.pdf".toList :=
  have h0 : "MSDS".toList ≠ [] ∧ ∀ c ∈ "MSDS".toList, isAlnum c = true := by decide
  have hws : ∀ w ∈ ["Sheet".toList, "v2".toList], w ≠ [] ∧ (∀ c ∈ w, isAlnum c = true)
      ∧ ¬ "pdf".toList <+: w.map Char.toLower := by
    decide
  ⟨h0, hws, (urlToFilename_hyphenated id "https://x.test".toList "MSDS".toList
    ["Sheet".toList, "v2".toList] h0 hws).1, by decide⟩

/-! ### The destination path -/

theorem extScan_no_slash (rev acc : Str) (hacc : ∀ c ∈ acc, c ≠ '/') :
    ∀ c ∈ extScan rev acc, c ≠ '/' := by
  induction rev generalizing acc with
  | nil => simp [extScan]
  | cons x xs ih =>
    intro c hc
    rw [extScan] at hc
    split_ifs at hc with h1 h2
    · simp at hc
    · rcases List.mem_cons.mp hc with h | h
      · rw [h]
        decide
      · exact hacc c h
    · refine ih (x :: acc) ?_ c hc
      intro d hd
      rcases List.mem_cons.mp hd with h | h
      · rw [h]
        simpa using h1
      · exact hacc d h

/-- The file name has no slash. -/
theorem urlToFilename_no_slash (ul : Char → Char) (u : Str) :
    ∀ c ∈ urlToFilename ul u, c ≠ '/' := by
  intro c hc
  rw [urlToFilename_eq, List.mem_append, List.mem_append] at hc
  rcases hc with (hc | hc) | hc
  · rcases safeStem_chars ul u c hc with h | h
    · exact isLowerAlnum_ne c '/' h (by decide)
    · rw [h]
      decide
  · exact extScan_no_slash _ [] (by simp) c hc
  · simp only [List.mem_cons, List.mem_singleton, List.not_mem_nil, or_false] at hc
    rcases hc with h | h | h | h <;> subst h <;> decide

theorem splitSlash_plain (x cur : Str) (hx : ∀ c ∈ x, c ≠ '/') :
    splitSlash x cur = [cur.reverse ++ x] := by
  induction x generalizing cur with
  | nil => simp [splitSlash]
  | cons c cs ih =>
    have hc : (c == '/') = false := by simpa using hx c (List.mem_cons_self _ _)
    rw [splitSlash, hc]
    simp only [Bool.false_eq_true, if_false]
    rw [ih _ (fun d hd => hx d (List.mem_cons_of_mem _ hd))]
    simp

theorem splitSlash_append_slash (d f cur : Str) (hf : ∀ c ∈ f, c ≠ '/') :
    splitSlash (d ++ '/' :: f) cur = splitSlash d cur ++ [f] := by
  induction d generalizing cur with
  | nil =>
    have e : (('/' : Char) == '/') = true := by decide
    simp only [List.nil_append, splitSlash, e, if_true]
    rw [splitSlash_plain f [] hf]
    simp
  | cons c cs ih =>
    rw [List.cons_append, splitSlash, splitSlash]
    split_ifs
    · rw [ih]
      rfl
    · rw [ih]

theorem cleanStep_plain (rooted : Bool) (out : List Str) (f : Str) (hne : f ≠ [])
    (hdot : f ≠ ['.']) (hdd : f ≠ ['.', '.']) : cleanStep rooted out f = f :: out := by
  unfold cleanStep
  have : f.isEmpty = false := by
    cases f with
    | nil => exact absurd rfl hne
    | cons _ _ => rfl
  simp [this, hdot, hdd]

theorem cleanStep_nonempty (rooted : Bool) (out : List Str) (elem : Str)
    (h : ∀ e ∈ out, e ≠ []) : ∀ e ∈ cleanStep rooted out elem, e ≠ [] := by
  intro e he
  unfold cleanStep at he
  by_cases h1 : (elem.isEmpty || decide (elem = ['.'])) = true
  · rw [if_pos h1] at he
    exact h e he
  · rw [if_neg h1] at he
    have hne : elem ≠ [] := by
      intro h4
      rw [h4] at h1
      simp at h1
    by_cases h2 : elem = ['.', '.']
    · rw [if_pos h2] at he
      cases out with
      | nil =>
        cases rooted with
        | true => simp at he
        | false =>
          simp only [Bool.false_eq_true, if_false, List.mem_singleton] at he
          rw [he]
          exact hne
      | cons top rest =>
        simp only at he
        by_cases h3 : top = ['.', '.']
        · rw [if_pos h3] at he
          rcases List.mem_cons.mp he with h5 | h5
          · rw [h5]
            exact hne
          · exact h e h5
        · rw [if_neg h3] at he
          exact h e (List.mem_cons_of_mem _ he)
    · rw [if_neg h2] at he
      rcases List.mem_cons.mp he with h5 | h5
      · rw [h5]
        exact hne
      · exact h e h5

theorem foldl_cleanStep_nonempty (rooted : Bool) (l out : List Str) (h : ∀ e ∈ out, e ≠ []) :
    ∀ e ∈ l.foldl (cleanStep rooted) out, e ≠ [] := by
  induction l generalizing out with
  | nil => exact h
  | cons x xs ih => exact ih _ (cleanStep_nonempty rooted out x h)

theorem intercalate_append_singleton (xs : List Str) (f : Str) (h : xs ≠ []) :
    ['/'].intercalate (xs ++ [f]) = ['/'].intercalate xs ++ '/' :: f := by
  induction xs with
  | nil => exact absurd rfl h
  | cons x xs ih =>
    cases xs with
    | nil => simp [List.intercalate]
    | cons y ys =>
      have := ih (by simp)
      simp [List.intercalate] at this ⊢
      exact this

theorem intercalate_ne_nil (xs : List Str) (h : xs ≠ []) (hne : ∀ e ∈ xs, e ≠ []) :
    ['/'].intercalate xs ≠ [] := by
  cases xs with
  | nil => exact absurd rfl h
  | cons x xs =>
    have hx : x ≠ [] := hne x (List.mem_cons_self _ _)
    cases xs with
    | nil => simpa [List.intercalate] using hx
    | cons y ys => simp [List.intercalate, hx]

/-- Joining a directory and a plain file name: the result is the cleaned
directory, a slash and the name; the slash is not doubled after the root, and
the directory `.` is left out. -/
theorem filepathJoin_plain (dir f : Str) (hslash : ∀ c ∈ f, c ≠ '/') (hne : f ≠ [])
    (hdot : f ≠ ['.']) (hdd : f ≠ ['.', '.']) :
    filepathJoin dir f = filepathClean dir ++ '/' :: f
    ∨ (filepathClean dir = ['.'] ∧ filepathJoin dir f = f)
    ∨ (filepathClean dir = ['/'] ∧ filepathJoin dir f = '/' :: f) := by
  have hfe : f.isEmpty = false := by
    cases f with
    | nil => exact absurd rfl hne
    | cons _ _ => rfl
  have hfroot : hasPrefix f ['/'] = false := by
    cases f with
    | nil => rfl
    | cons c cs =>
      have : c ≠ '/' := hslash c (List.mem_cons_self _ _)
      simp [hasPrefix, List.isPrefixOf, Ne.symm this]
  by_cases hd : dir = []
  · subst hd
    refine Or.inr (Or.inl ⟨by decide, ?_⟩)
    unfold filepathJoin
    simp only [List.isEmpty_nil, Bool.not_true, Bool.false_eq_true, if_false, hfe, Bool.not_false,
      if_true]
    unfold filepathClean
    simp only [hfroot, splitSlash_plain f [] hslash, List.reverse_nil, List.nil_append,
      List.foldl_cons, List.foldl_nil, cleanStep_plain false [] f hne hdot hdd]
    simp [List.intercalate, hfe]
  · have hde : dir.isEmpty = false := by
      cases dir with
      | nil => exact absurd rfl hd
      | cons _ _ => rfl
    have hroot : hasPrefix (dir ++ '/' :: f) ['/'] = hasPrefix dir ['/'] := by
      cases dir with
      | nil => exact absurd rfl hd
      | cons c cs => simp [hasPrefix, List.isPrefixOf]
    have hjoin : filepathJoin dir f = filepathClean (dir ++ '/' :: f) := by
      unfold filepathJoin
      simp [hde]
    rw [hjoin]
    unfold filepathClean
    simp only [hroot, splitSlash_append_slash dir f [] hslash, List.foldl_append, List.foldl_cons,
      List.foldl_nil, cleanStep_plain _ _ f hne hdot hdd, List.reverse_cons]
    generalize hout : (splitSlash dir []).foldl (cleanStep (hasPrefix dir ['/'])) [] = out
    have hnonempty : ∀ e ∈ out.reverse, e ≠ [] := by
      intro e he
      rw [← hout] at he
      exact foldl_cleanStep_nonempty _ _ [] (by simp) e (List.mem_reverse.mp he)
    by_cases ho : out = []
    · subst ho
      cases hr : hasPrefix dir ['/'] with
      | true =>
        refine Or.inr (Or.inr ⟨by simp [List.intercalate], ?_⟩)
        simp [List.intercalate]
      | false =>
        refine Or.inr (Or.inl ⟨by simp [List.intercalate], ?_⟩)
        simp [List.intercalate, hfe]
    · left
      have hrev : out.reverse ≠ [] := by simpa using ho
      have hbody := intercalate_ne_nil out.reverse hrev hnonempty
      rw [intercalate_append_singleton _ f hrev]
      cases hr : hasPrefix dir ['/'] with
      | true => simp
      | false =>
        have h1 : (['/'].intercalate out.reverse).isEmpty = false := by
          cases hb : ['/'].intercalate out.reverse with
          | nil => exact absurd hb hbody
          | cons _ _ => rfl
        simp [h1]

/-- Whatever the outcome, `downloadPDF` changes no node of the file system
other than the one at the destination. -/
theorem downloadPDF_changes_only_destination (ul : Char → Char) (w : World) (fs : FS)
    (url dir : Str) (k : Str)
    (hk : k ≠ filepathClean (filepathJoin dir (toLower ul (urlToFilename ul url)))) :
    (downloadPDF ul w fs url dir).fs.get k = fs.get k := by
  unfold downloadPDF
  simp only
  split_ifs with h1
  · rfl
  · cases hg : w.pdfGet url with
    | fail r => rfl
    | ok resp =>
      simp only
      split_ifs with h2 h3 h4 h5
      · rfl
      · rfl
      · rfl
      · rfl
      · cases hc : osCreate w fs (filepathJoin dir (toLower ul (urlToFilename ul url))) with
        | none => rfl
        | some fs1 =>
          have hfs1 := osCreate_eq_some w fs fs1 _ hc
          cases hw : w.writeFailsAt (filepathJoin dir (toLower ul (urlToFilename ul url))) with
          | some n =>
            simp only [writeTo, hw, hfs1, fs_put_put]
            exact fs_get_put_other _ _ _ _ hk
          | none =>
            simp only [writeTo, hw, hfs1, fs_put_put]
            exact fs_get_put_other _ _ _ _ hk

/-! ### `filepath.Clean` is idempotent -/

theorem splitSlash_no_slash (s cur : Str) (hcur : ∀ c ∈ cur, c ≠ '/') :
    ∀ e ∈ splitSlash s cur, ∀ c ∈ e, c ≠ '/' := by
  induction s generalizing cur with
  | nil =>
    intro e he c hc
    simp only [splitSlash, List.mem_singleton] at he
    rw [he] at hc
    exact hcur c (List.mem_reverse.mp hc)
  | cons x xs ih =>
    intro e he
    rw [splitSlash] at he
    split_ifs at he with hx
    · rcases List.mem_cons.mp he with h | h
      · intro c hc
        rw [h] at hc
        exact hcur c (List.mem_reverse.mp hc)
      · exact ih [] (by simp) e h
    · refine ih (x :: cur) ?_ e he
      intro c hc
      rcases List.mem_cons.mp hc with h | h
      · rw [h]
        simpa using hx
      · exact hcur c h

theorem cleanStack_nil (rooted : Bool) : CleanStack rooted [] :=
  ⟨by simp, [], [], rfl, by simp, by simp, fun _ => rfl⟩

theorem cleanStep_cleanStack (rooted : Bool) (out : List Str) (elem : Str)
    (h : CleanStack rooted out) (helem : ∀ c ∈ elem, c ≠ '/') :
    CleanStack rooted (cleanStep rooted out elem) := by
  obtain ⟨hall, names, dds, hout, hdds, hnames, hroot⟩ := h
  unfold cleanStep
  by_cases h1 : (elem.isEmpty || decide (elem = ['.'])) = true
  · rw [if_pos h1]
    exact ⟨hall, names, dds, hout, hdds, hnames, hroot⟩
  · rw [if_neg h1]
    have hne : elem ≠ [] := by
      intro h4
      rw [h4] at h1
      simp at h1
    have hnd : elem ≠ ['.'] := by
      intro h4
      rw [h4] at h1
      simp at h1
    have hgood : elem ≠ [] ∧ elem ≠ ['.'] ∧ ∀ c ∈ elem, c ≠ '/' := ⟨hne, hnd, helem⟩
    by_cases h2 : elem = ['.', '.']
    · rw [if_pos h2]
      cases out with
      | nil =>
        cases rooted with
        | true => exact cleanStack_nil true
        | false =>
          refine ⟨?_, [], [elem], rfl, ?_, by simp, by simp⟩
          · intro e he
            rw [List.mem_singleton.mp he]
            exact hgood
          · intro e he
            rw [List.mem_singleton.mp he]
            exact h2
      | cons top rest =>
        simp only
        by_cases h3 : top = ['.', '.']
        · rw [if_pos h3]
          have hnames0 : names = [] := by
            cases names with
            | nil => rfl
            | cons a as =>
              exfalso
              have : top = a := by
                simp only [List.cons_append, List.cons.injEq] at hout
                exact hout.1
              exact hnames a (List.mem_cons_self _ _) (this ▸ h3)
          subst hnames0
          have hr : rooted = false := by
            cases rooted with
            | false => rfl
            | true =>
              have := hroot rfl
              rw [this] at hout
              simp at hout
          refine ⟨?_, [], elem :: top :: rest, rfl, ?_, by simp, ?_⟩
          · intro e he
            rcases List.mem_cons.mp he with h5 | h5
            · rw [h5]
              exact hgood
            · exact hall e h5
          · intro e he
            rcases List.mem_cons.mp he with h5 | h5
            · rw [h5]
              exact h2
            · rw [hout] at h5
              exact hdds e (by simpa using h5)
          · intro h6
            rw [hr] at h6
            exact absurd h6 (by decide)
        · rw [if_neg h3]
          cases names with
          | nil =>
            exfalso
            rw [List.nil_append] at hout
            exact h3 (hdds top (by rw [← hout]; exact List.mem_cons_self _ _))
          | cons a as =>
            simp only [List.cons_append, List.cons.injEq] at hout
            refine ⟨fun e he => hall e (List.mem_cons_of_mem _ he), as, dds, hout.2, hdds,
              fun e he => hnames e (List.mem_cons_of_mem _ he), hroot⟩
    · rw [if_neg h2]
      refine ⟨?_, elem :: names, dds, by rw [hout]; rfl, hdds, ?_, hroot⟩
      · intro e he
        rcases List.mem_cons.mp he with h5 | h5
        · rw [h5]
          exact hgood
        · exact hall e h5
      · intro e he
        rcases List.mem_cons.mp he with h5 | h5
        · rw [h5]
          exact h2
        · exact hnames e h5

theorem foldl_cleanStep_cleanStack (rooted : Bool) (l out : List Str)
    (h : CleanStack rooted out) (hl : ∀ e ∈ l, ∀ c ∈ e, c ≠ '/') :
    CleanStack rooted (l.foldl (cleanStep rooted) out) := by
  induction l generalizing out with
  | nil => exact h
  | cons x xs ih =>
    exact ih _ (cleanStep_cleanStack rooted out x h (hl x (List.mem_cons_self _ _)))
      (fun e he => hl e (List.mem_cons_of_mem _ he))

theorem foldl_cleanStep_dotdots (l s : List Str) (hl : ∀ e ∈ l, e = ['.', '.'])
    (hs : ∀ e ∈ s, e = ['.', '.']) : l.foldl (cleanStep false) s = l.reverse ++ s := by
  induction l generalizing s with
  | nil => simp
  | cons x xs ih =>
    have hx : x = ['.', '.'] := hl x (List.mem_cons_self _ _)
    have hstep : cleanStep false s x = x :: s := by
      rw [hx]
      cases s with
      | nil => rfl
      | cons top rest =>
        have : top = ['.', '.'] := hs top (List.mem_cons_self _ _)
        rw [this]
        rfl
    rw [List.foldl_cons, hstep, ih _ (fun e he => hl e (List.mem_cons_of_mem _ he))]
    · simp
    · intro e he
      rcases List.mem_cons.mp he with h | h
      · rw [h]
        exact hx
      · exact hs e h

theorem foldl_cleanStep_names (rooted : Bool) (l s : List Str)
    (hl : ∀ e ∈ l, e ≠ [] ∧ e ≠ ['.'] ∧ e ≠ ['.', '.']) :
    l.foldl (cleanStep rooted) s = l.reverse ++ s := by
  induction l generalizing s with
  | nil => simp
  | cons x xs ih =>
    have hx := hl x (List.mem_cons_self _ _)
    rw [List.foldl_cons, cleanStep_plain rooted s x hx.1 hx.2.1 hx.2.2,
      ih _ (fun e he => hl e (List.mem_cons_of_mem _ he))]
    simp

/-- Cleaning the elements that were kept keeps them all. -/
theorem foldl_cleanStep_reverse (rooted : Bool) (out : List Str) (h : CleanStack rooted out) :
    out.reverse.foldl (cleanStep rooted) [] = out := by
  obtain ⟨hall, names, dds, hout, hdds, hnames, hroot⟩ := h
  have hn : ∀ e ∈ names.reverse, e ≠ [] ∧ e ≠ ['.'] ∧ e ≠ ['.', '.'] := by
    intro e he
    have he2 : e ∈ names := List.mem_reverse.mp he
    have := hall e (by rw [hout]; exact List.mem_append_left _ he2)
    exact ⟨this.1, this.2.1, hnames e he2⟩
  rw [hout, List.reverse_append, List.foldl_append]
  cases rooted with
  | true =>
    rw [hroot rfl]
    simp only [List.reverse_nil, List.foldl_nil, List.append_nil]
    rw [foldl_cleanStep_names true _ [] hn]
    simp
  | false =>
    rw [foldl_cleanStep_dotdots dds.reverse [] (fun e he => hdds e (List.mem_reverse.mp he))
      (by simp), foldl_cleanStep_names false _ _ hn]
    simp

theorem splitSlash_elem_slash (x rest cur : Str) (hx : ∀ c ∈ x, c ≠ '/') :
    splitSlash (x ++ '/' :: rest) cur = (cur.reverse ++ x) :: splitSlash rest [] := by
  induction x generalizing cur with
  | nil =>
    have e : (('/' : Char) == '/') = true := by decide
    simp [splitSlash, e]
  | cons c cs ih =>
    have hc : (c == '/') = false := by simpa using hx c (List.mem_cons_self _ _)
    rw [List.cons_append, splitSlash, hc]
    simp only [Bool.false_eq_true, if_false]
    rw [ih _ (fun d hd => hx d (List.mem_cons_of_mem _ hd))]
    simp

theorem splitSlash_intercalate (xs : List Str) (hne : xs ≠ [])
    (hxs : ∀ e ∈ xs, ∀ c ∈ e, c ≠ '/') : splitSlash (['/'].intercalate xs) [] = xs := by
  induction xs with
  | nil => exact absurd rfl hne
  | cons x xs ih =>
    have hx := hxs x (List.mem_cons_self _ _)
    cases xs with
    | nil =>
      have : ['/'].intercalate [x] = x := by simp [List.intercalate]
      rw [this, splitSlash_plain x [] hx]
      simp
    | cons y ys =>
      have : ['/'].intercalate (x :: y :: ys) = x ++ '/' :: ['/'].intercalate (y :: ys) := by
        simp [List.intercalate]
      rw [this, splitSlash_elem_slash x _ [] hx,
        ih (by simp) (fun e he => hxs e (List.mem_cons_of_mem _ he))]
      simp

/-- The function `filepath.Clean` returns a path that it leaves unchanged. -/
theorem filepathClean_idem (p : Str) : filepathClean (filepathClean p) = filepathClean p := by
  have hstack : CleanStack (hasPrefix p ['/'])
      ((splitSlash p []).foldl (cleanStep (hasPrefix p ['/'])) []) :=
    foldl_cleanStep_cleanStack _ _ [] (cleanStack_nil _) (splitSlash_no_slash p [] (by simp))
  generalize hout : (splitSlash p []).foldl (cleanStep (hasPrefix p ['/'])) [] = out at hstack
  have hrefold := foldl_cleanStep_reverse _ out hstack
  have hxs : ∀ e ∈ out.reverse, ∀ c ∈ e, c ≠ '/' :=
    fun e he => (hstack.1 e (List.mem_reverse.mp he)).2.2
  have hxne : ∀ e ∈ out.reverse, e ≠ [] :=
    fun e he => (hstack.1 e (List.mem_reverse.mp he)).1
  have hclean : filepathClean p
      = if hasPrefix p ['/'] then '/' :: ['/'].intercalate out.reverse
        else if (['/'].intercalate out.reverse).isEmpty then ['.']
        else ['/'].intercalate out.reverse := by
    unfold filepathClean
    simp only [hout]
  rw [hclean]
  cases hr : hasPrefix p ['/'] with
  | true =>
    rw [hr] at hrefold
    simp only [if_true]
    have hsplit : (splitSlash ('/' :: ['/'].intercalate out.reverse) []).foldl (cleanStep true) []
        = out := by
      have e : (('/' : Char) == '/') = true := by decide
      rw [splitSlash, e]
      simp only [if_true, List.reverse_nil, List.foldl_cons]
      have e2 : cleanStep true [] [] = [] := rfl
      rw [e2]
      by_cases ho : out = []
      · subst ho
        rfl
      · rw [splitSlash_intercalate _ (by simpa using ho) hxs]
        exact hrefold
    unfold filepathClean
    have hp : hasPrefix ('/' :: ['/'].intercalate out.reverse) ['/'] = true := by
      simp [hasPrefix, List.isPrefixOf]
    simp only [hp, hsplit, if_true]
  | false =>
    rw [hr] at hrefold
    simp only [Bool.false_eq_true, if_false]
    by_cases ho : out = []
    · subst ho
      decide
    · have hrev : out.reverse ≠ [] := by simpa using ho
      have hbody := intercalate_ne_nil out.reverse hrev hxne
      have hbe : (['/'].intercalate out.reverse).isEmpty = false := by
        cases hb : ['/'].intercalate out.reverse with
        | nil => exact absurd hb hbody
        | cons _ _ => rfl
      simp only [hbe, Bool.false_eq_true, if_false]
      have hp : hasPrefix (['/'].intercalate out.reverse) ['/'] = false := by
        cases hrv : out.reverse with
        | nil => exact absurd hrv hrev
        | cons x xs =>
          have hx : x ≠ [] := hxne x (by rw [hrv]; exact List.mem_cons_self _ _)
          have hxs2 := hxs x (by rw [hrv]; exact List.mem_cons_self _ _)
          cases x with
          | nil => exact absurd rfl hx
          | cons c cs =>
            have hc : c ≠ '/' := hxs2 c (List.mem_cons_self _ _)
            cases xs with
            | nil => simp [List.intercalate, hasPrefix, List.isPrefixOf, Ne.symm hc]
            | cons y ys => simp [List.intercalate, hasPrefix, List.isPrefixOf, Ne.symm hc]
      unfold filepathClean
      simp only [hp, splitSlash_intercalate _ hrev hxs, hrefold, hbe, Bool.false_eq_true, if_false]

/-- C16: for every URL string the file name has no slash and is neither `.`
nor `..`.  So the destination `filepath.Join(outputDir, urlToFilename(u))` is
the entry of that name directly in the cleaned output directory (written
without a doubled slash under the root and without the directory `.`), and
`downloadPDF` changes no node of the file system other than the one at this
path: no URL makes it write elsewhere.  The last part uses that the further
lowercasing of the name in `downloadPDF` changes nothing, as lowercasing is
idempotent. -/
theorem urlToFilename_stays_in_outputDir (ul : Char → Char) (u dir : Str) :
    (∀ c ∈ urlToFilename ul u, c ≠ '/')
    ∧ urlToFilename ul u ≠ ['.']
    ∧ urlToFilename ul u ≠ ['.', '.']
    ∧ (filepathJoin dir (urlToFilename ul u) = filepathClean dir ++ '/' :: urlToFilename ul u
      ∨ (filepathClean dir = ['.']
          ∧ filepathJoin dir (urlToFilename ul u) = urlToFilename ul u)
      ∨ (filepathClean dir = ['/']
          ∧ filepathJoin dir (urlToFilename ul u) = '/' :: urlToFilename ul u))
    ∧ ((∀ c, toLowerRune ul (toLowerRune ul c) = toLowerRune ul c) →
        ∀ (w : World) (fs : FS) (k : Str), k ≠ filepathJoin dir (urlToFilename ul u) →
          (downloadPDF ul w fs u dir).fs.get k = fs.get k) := by
  have hlen : 4 ≤ (urlToFilename ul u).length := by
    rw [urlToFilename_eq]
    simp only [List.length_append, List.length_cons, List.length_nil]
    omega
  have hne : urlToFilename ul u ≠ [] := by
    intro h
    rw [h] at hlen
    simp at hlen
  have hdot : urlToFilename ul u ≠ ['.'] := by
    intro h
    rw [h] at hlen
    simp at hlen
  have hdd : urlToFilename ul u ≠ ['.', '.'] := by
    intro h
    rw [h] at hlen
    simp at hlen
  refine ⟨urlToFilename_no_slash ul u, hdot, hdd,
    filepathJoin_plain dir _ (urlToFilename_no_slash ul u) hne hdot hdd, ?_⟩
  intro hul w fs k hk
  apply downloadPDF_changes_only_destination
  rw [toLower_urlToFilename ul hul]
  have hclean : filepathClean (filepathJoin dir (urlToFilename ul u))
      = filepathJoin dir (urlToFilename ul u) := by
    unfold filepathJoin
    split_ifs with h1 h2
    · exact filepathClean_idem _
    · exact filepathClean_idem _
    · exfalso
      apply hne
      simpa using h2
  rw [hclean]
  exact hk

/-- A URL with `..` in its path: the document is downloaded into the output
directory, and the file outside it is left untouched. -/
theorem urlToFilename_stays_in_outputDir_witness :
    urlToFilename id "https://x.test/../../etc/passwd".toList = "passwd.pdf".toList
    ∧ filepathJoin sampleDir (urlToFilename id "https://x.test/../../etc/passwd".toList)
        = "PDFs/passwd.pdf".toList
    ∧ (∀ c, toLowerRune id (toLowerRune id c) = toLowerRune id c)
    ∧ "etc/passwd".toList
        ≠ filepathJoin sampleDir (urlToFilename id "https://x.test/../../etc/passwd".toList)
    ∧ (downloadPDF id (serverWorld pdfResponse none) systemFS
          "https://x.test/../../etc/passwd".toList sampleDir).ok = true
    ∧ (downloadPDF id (serverWorld pdfResponse none) systemFS
          "https://x.test/../../etc/passwd".toList sampleDir).fs.get "etc/passwd".toList
        = systemFS.get "etc/passwd".toList :=
  have hk : "etc/passwd".toList
      ≠ filepathJoin sampleDir (urlToFilename id "https://x.test/../../etc/passwd".toList) := by
    decide
  ⟨by decide, by decide, toLowerRune_id_idem, hk, by decide,
    (urlToFilename_stays_in_outputDir id "https://x.test/../../etc/passwd".toList sampleDir).2.2.2.2
      toLowerRune_id_idem (serverWorld pdfResponse none) systemFS "etc/passwd".toList hk⟩

end Cascorp
